import Mathlib

/-!
# Verification of the ts-postgres frame reassembly/dispatch engine

A shallow embedding of the frame dispatcher (`Client.receive`), the byte
reassembler (the stream `'data'` handler), the error/notice field parser
(`Client.parseError`), the event registration dispatch (`Client.on`) from
`src/client.ts`, and the result pipeline (`ResultIterator`, `makeResult`)
from `src/result.ts`.

Buffers are modelled as `List Nat` of byte values (each `< 256`); the
signed JavaScript reads (`readInt8`, `readInt32BE`, `readInt16BE`) are
modelled over `Int` with explicit two's-complement wrapping.  Callbacks
(row consumers, name consumers) are modelled by opaque numeric identifiers;
a callback invocation is recorded as an element of an output trace.
Interactions with the excluded collaborators (the outgoing-message writer
and the socket) are likewise recorded as trace outputs.
-/

set_option maxHeartbeats 1000000

namespace TsPostgres

/-! ## Byte-level readers (Node `Buffer` reads used by `client.ts`) -/

/-- Unsigned byte read; out-of-range reads yield 0 (they are unreachable in
the verified well-formed executions). -/
def byteAt (buf : List Nat) (i : Nat) : Nat := buf.getD i 0

/-- `buffer.readInt8(i)`: a signed 8-bit read. -/
def readInt8 (buf : List Nat) (i : Nat) : Int :=
  let b : Nat := byteAt buf i
  if b < 128 then (b : Int) else (b : Int) - 256

/-- Unsigned big-endian 32-bit read. -/
def readUInt32BE (buf : List Nat) (i : Nat) : Nat :=
  byteAt buf i * 2 ^ 24 + byteAt buf (i + 1) * 2 ^ 16 +
    byteAt buf (i + 2) * 2 ^ 8 + byteAt buf (i + 3)

/-- `buffer.readInt32BE(i)`: a signed big-endian 32-bit read. -/
def readInt32BE (buf : List Nat) (i : Nat) : Int :=
  let u : Nat := readUInt32BE buf i
  if u < 2 ^ 31 then (u : Int) else (u : Int) - 2 ^ 32

/-- `buffer.readInt16BE(i)`: a signed big-endian 16-bit read. -/
def readInt16BE (buf : List Nat) (i : Nat) : Int :=
  let u : Nat := byteAt buf i * 2 ^ 8 + byteAt buf (i + 1)
  if u < 2 ^ 15 then (u : Int) else (u : Int) - 2 ^ 16

/-- Big-endian 4-byte encoding of a (non-negative) frame length field. -/
def int32be (n : Nat) : List Nat :=
  [n / 2 ^ 24 % 256, n / 2 ^ 16 % 256, n / 2 ^ 8 % 256, n % 256]

/-- Index of the first zero byte of a list, if any. -/
def findZeroIdx : List Nat → Option Nat
  | [] => none
  | b :: rest =>
    if b = 0 then some 0 else (findZeroIdx rest).map (fun k => k + 1)

/-- First index `≥ i` holding a zero byte (`buffer.indexOf` restricted to
the byte `'\0'`), as an `Option`. -/
def indexOfZero (buf : List Nat) (i : Nat) : Option Nat :=
  (findZeroIdx (buf.drop i)).map (fun k => k + i)

/-- Node's `buffer.indexOf('\0', i)`, returning `-1` when absent. -/
def jsIndexOfZero (buf : List Nat) (i : Nat) : Int :=
  match indexOfZero buf i with
  | some k => (k : Int)
  | none => -1

/-- Node's `buffer.slice(s, e)` with negative-index wrapping and clamping. -/
def jsSlice (buf : List Nat) (s e : Int) : List Nat :=
  let len : Int := buf.length
  let s' : Nat := (if s < 0 then max 0 (len + s) else min s len).toNat
  let e' : Nat := (if e < 0 then max 0 (len + e) else min e len).toNat
  (buf.drop s').take (e' - s')

/-! ## Message tags

Modelled from the spec: the `Message` enum lives in `protocol.ts`, which is
not part of the two source files; the values are the standard wire-protocol
tag bytes for the frame types named in the spec's dispatch table. -/

def msgAuthenticate : Int := 82
def msgBackendKeyData : Int := 75
def msgBindComplete : Int := 50
def msgClose : Int := 67
def msgCloseComplete : Int := 51
def msgError : Int := 69
def msgNotice : Int := 78
def msgParseComplete : Int := 49
def msgParameterDescription : Int := 116
def msgParameterStatus : Int := 83
def msgReadyForQuery : Int := 90
def msgRowDescription : Int := 84
def msgRowData : Int := 68
def msgNoData : Int := 110

/-- `TransactionStatus.Idle` (the status byte for an idle transaction). -/
def txIdle : Int := 73

/-! ## Faults, events and collaborator outputs -/

/-- The faults `Client.receive` can raise by `throw`.  `fuelOut` marks
model-level fuel exhaustion; it never occurs on the well-formed inputs the
theorems below consider. -/
inductive Fault where
  | unexpectedData
  | rowDescriptionExpected
  | unableToParseError
  | fuelOut
deriving Repr, DecidableEq

/-- The structured error/notice produced by `Client.parseError`.  The three
fields are byte strings (the `toString` decoding is external). -/
structure DbError where
  level : List Nat
  code : List Nat
  message : List Nat
deriving Repr, DecidableEq

/-- A pending prepared-statement context (`PreparedStatement` in
`client.ts`): name, portal and bound argument values (arguments are opaque
identifiers here). -/
structure PrepStatement where
  name : String
  portal : String
  args : List Nat
deriving Repr, DecidableEq

/-- One observable effect of dispatch: a callback invocation, an emitted
event, or an instruction to the (excluded) writer collaborator.
`row h d payload` records `info.handler(row)` where the row was decoded
from `payload` under description `d`; `endOfRows h` records `handler(null)`;
`names h ns` records a name-consumer invocation.  `connectEvent` is
recorded at the point the emission is scheduled (the source defers the
actual emission with `process.nextTick`). -/
inductive Out where
  | row (h : Nat) (d : List Nat) (payload : List Nat)
  | endOfRows (h : Nat)
  | names (h : Nat) (ns : List Nat)
  | connectEvent
  | password
  | errorEvent (e : DbError)
  | noticeEvent (e : DbError)
  | bind (name portal : String) (args : List Nat) (types : List Int)
  | execute (portal : String)
  | closeStatement (name : String)
  | closePortal (portal : String)
  | sync
  | flush
  | parameterEvent (name value : List Nat)
  | warn (mtype : Int)
deriving Repr, DecidableEq

/-- The dispatcher's persistent state: `expect`, the four FIFO registries
(`Queue.push` appends at the back, `Queue.shift` pops at the front; the
`Queue` class is modelled from the spec as a strict FIFO), the active
delivery context, and the connection-status fields mutated by dispatch.
Row descriptions are modelled by their raw payload bytes (see
`readRowDescription`). -/
structure DState where
  expect : Nat
  dataHandlers : List Nat
  nameHandlers : List Nat
  rowDescriptions : List (List Nat)
  preparedStatements : List PrepStatement
  activeInfo : Option (Nat × List Nat)
  ready : Bool
  transactionStatus : Option Int
  processId : Option Int
  secretKey : Option Int
  connecting : Bool
deriving Repr, DecidableEq

/-! ## `Client.parseError` -/

/-- The field-scanning loop of `Client.parseError` (`client.ts:312-336`).
Fuel is bounded by the slice length; each iteration moves `offset` past the
terminator just found, so `buf.length + 1` fuel always suffices. -/
def parseErrorFields (buf : List Nat) :
    Nat → Nat → Option (List Nat) → Option (List Nat) → Option (List Nat) →
    Option (List Nat) × Option (List Nat) × Option (List Nat)
  | 0, _, level, code, message => (level, code, message)
  | fuel + 1, offset, level, code, message =>
    if offset < buf.length then
      match indexOfZero buf offset with
      | none => (level, code, message)
      | some next =>
        let value := (buf.drop (offset + 1)).take (next - (offset + 1))
        if byteAt buf offset = 0x56 then
          parseErrorFields buf fuel (next + 1) (some value) code message
        else if byteAt buf offset = 0x43 then
          parseErrorFields buf fuel (next + 1) level (some value) message
        else if byteAt buf offset = 0x4d then
          parseErrorFields buf fuel (next + 1) level code (some value)
        else
          parseErrorFields buf fuel (next + 1) level code message
    else (level, code, message)

/-- JavaScript truthiness of a nullable string: `null` and `""` are falsy. -/
def truthy (o : Option (List Nat)) : Bool :=
  match o with
  | none => false
  | some s => !s.isEmpty

/-- `Client.parseError` (`client.ts:304-347`): scan the tag/value field
list, then return the structured error only when severity (`0x56 'V'`),
code (`0x43 'C'`) and message (`0x4d 'M'`) are all truthy, else throw. -/
def parseError (buf : List Nat) : Except Fault DbError :=
  let r := parseErrorFields buf (buf.length + 1) 0 none none none
  match r with
  | (level, code, message) =>
    if truthy level ∧ truthy code ∧ truthy message then
      .ok ⟨level.getD [], code.getD [], message.getD []⟩
    else
      .error .unableToParseError

/-! ## The frame dispatcher (`Client.receive`, `client.ts:349-550`) -/

/-- Modelled from the spec: `readRowData` (in the missing `protocol.ts`)
decodes one row from the buffer starting at `start` using the paired row
description's field metadata; the decode consumes exactly the frame's
payload (the row layout is self-delimiting), so we model the decoded row by
the raw payload bytes and take the payload extent as an argument. -/
def readRowData (buf : List Nat) (start len : Nat) : List Nat :=
  (buf.drop start).take len

/-- Modelled from the spec: `readRowDescription` (in the missing
`protocol.ts`) parses the ordered field metadata list from the frame
payload; the parse consumes exactly the payload, so we model the resulting
description by the raw payload bytes, with the extent as an argument.  The
`names` delivered to a waiting name consumer are a function of this
payload; we record the payload itself. -/
def readRowDescription (buf : List Nat) (start len : Nat) : List Nat :=
  (buf.drop start).take len

/-- The consumer-activation step of the fast path (`client.ts:367-389`,
the `if (!info)` block): pop the next row consumer (fatal if none); for
"no data" deliver the end-of-stream sentinel immediately; otherwise pop the
next row description (fatal if none) and install the pair as the active
delivery context. -/
def fastActivate (st : DState) (isNoData : Bool) :
    Except Fault (DState × List Out) :=
  match st.activeInfo with
  | some _ => .ok (st, [])
  | none =>
    match st.dataHandlers with
    | [] => .error .unexpectedData
    | handler :: hs =>
      if isNoData then
        .ok ({ st with dataHandlers := hs }, [Out.endOfRows handler])
      else
        match st.rowDescriptions with
        | [] => .error .rowDescriptionExpected
        | description :: ds =>
          .ok ({ st with dataHandlers := hs, rowDescriptions := ds,
                         activeInfo := some (handler, description) }, [])

/-- The general-path dispatch switch (`client.ts:436-543`).  `start` is the
payload offset in `buffer`, `len` the payload length derived from the
header.  Returns the updated state and the outputs it emits, or the thrown
fault. -/
def stepSwitch (st : DState) (buffer : List Nat) (start len : Nat)
    (mtype : Int) : Except (Fault × List Out) (DState × List Out) :=
  if mtype = msgAuthenticate then
    let code := readInt32BE buffer start
    if code = 0 then
      .ok ({ st with transactionStatus := some txIdle, connecting := false },
           [Out.connectEvent])
    else if code = 3 then
      .ok (st, [Out.password])
    else
      .ok (st, [])
  else if mtype = msgBackendKeyData then
    .ok ({ st with processId := some (readInt32BE buffer start),
                   secretKey := some (readInt32BE buffer (start + 4)) }, [])
  else if mtype = msgBindComplete then
    .ok (st, [])
  else if mtype = msgClose then
    match st.activeInfo with
    | some (h, _) => .ok ({ st with activeInfo := none }, [Out.endOfRows h])
    | none => .ok (st, [])
  else if mtype = msgCloseComplete then
    .ok (st, [])
  else if mtype = msgError then
    match parseError ((buffer.drop start).take len) with
    | .ok e => .ok (st, [Out.errorEvent e])
    | .error f => .error (f, [])
  else if mtype = msgNotice then
    match parseError ((buffer.drop start).take len) with
    | .ok e => .ok (st, [Out.noticeEvent e])
    | .error f => .error (f, [])
  else if mtype = msgParseComplete then
    .ok (st, [])
  else if mtype = msgParameterDescription then
    let count := (readInt16BE buffer start).toNat
    match st.preparedStatements with
    | [] => .ok (st, [])
    | ps :: rest =>
      let types := (List.range count).map
        (fun i => readInt32BE buffer (start + 2 + i * 4))
      .ok ({ st with preparedStatements := rest },
        [Out.bind ps.name ps.portal ps.args types, Out.execute ps.portal,
         Out.closeStatement ps.name] ++
        (if ps.portal ≠ "" then [Out.closePortal ps.portal] else []) ++
        [Out.sync, Out.flush])
  else if mtype = msgParameterStatus then
    let i := jsIndexOfZero buffer start
    let j := jsIndexOfZero buffer (i + 1).toNat
    let name := jsSlice buffer (start : Int) i
    let value := jsSlice buffer (i + 1) j
    .ok (st, [Out.parameterEvent name value])
  else if mtype = msgReadyForQuery then
    .ok ({ st with transactionStatus := some (readInt8 buffer start),
                   ready := true }, [Out.flush])
  else if mtype = msgRowDescription then
    let description := readRowDescription buffer start len
    let st := { st with rowDescriptions := st.rowDescriptions ++ [description] }
    match st.nameHandlers with
    | [] => .ok (st, [])
    | h :: hs =>
      .ok ({ st with nameHandlers := hs }, [Out.names h description])
  else
    .ok (st, [Out.warn mtype])

/-- The result of the fast-path loop: an early `return read` from
`receive`, a thrown fault, or a `break` to the general path at the current
frame (with the tag byte already read). -/
inductive FastResult where
  | ret (st : DState) (read : Nat) (outs : List Out)
  | fault (f : Fault) (outs : List Out)
  | brk (st : DState) (read : Nat) (mtype : Int) (outs : List Out)
deriving Repr, DecidableEq

/-- The fast path (`client.ts:357-422`, the inner `while (true)` loop):
drain consecutive row-data / no-data frames.  The source loop can diverge
on malformed input (a frame whose declared size is not positive); the fuel
argument makes the model total, with `size + 1` fuel sufficing on all
well-formed inputs (each well-formed frame consumes at least 5 bytes).
JavaScript arithmetic on the declared frame size is over `Int`; the `toNat`
clamp is the identity whenever the length field is at least 4, which the
well-formedness assumptions of the theorems below guarantee. -/
def fastLoop (buffer : List Nat) (offset size : Nat) :
    Nat → DState → Nat → List Out → FastResult
  | 0, _, _, acc => .fault .fuelOut acc
  | fuel + 1, st, read, acc =>
    let frame := offset + read
    let mtype := readInt8 buffer frame
    if mtype = msgRowData ∨ mtype = msgNoData then
      match fastActivate st (mtype = msgNoData) with
      | .error f => .fault f acc
      | .ok (st1, o1) =>
        let bytes := (readInt32BE buffer (frame + 1) + 1).toNat
        match st1.activeInfo with
        | some (h, d) =>
          if size < bytes + read then
            .ret { st1 with expect := bytes } read (acc ++ o1)
          else
            let row := readRowData buffer (frame + 5) (bytes - 5)
            let acc2 := acc ++ o1 ++ [Out.row h d row]
            let read2 := read + bytes
            if size < offset + read2 + 5 then
              .ret { st1 with expect := 5 } read2 acc2
            else
              fastLoop buffer offset size fuel st1 read2 acc2
        | none =>
          -- no-data with no active context: the source skips the
          -- completeness check and the row decode entirely
          let read2 := read + bytes
          let acc2 := acc ++ o1
          if size < offset + read2 + 5 then
            .ret { st1 with expect := 5 } read2 acc2
          else
            fastLoop buffer offset size fuel st1 read2 acc2
    else .brk st read mtype acc

/-- The result of one `receive` call: updated state, bytes consumed and
outputs, or a thrown fault together with the outputs already emitted
before the throw. -/
inductive ReceiveResult where
  | ok (st : DState) (read : Nat) (outs : List Out)
  | fault (f : Fault) (outs : List Out)
deriving Repr, DecidableEq

/-- The outer loop of `Client.receive` (`while (size >= this.expect +
read)`), with the general path inlined after the fast path breaks.  Fuel
counts outer iterations; `size + 1` always suffices on well-formed input. -/
def receiveLoop (buffer : List Nat) (offset size : Nat) :
    Nat → DState → Nat → List Out → ReceiveResult
  | 0, _, _, acc => .fault .fuelOut acc
  | fuel + 1, st, read, acc =>
    if size < st.expect + read then .ok st read acc
    else
      match fastLoop buffer offset size (size + 1) st read acc with
      | .fault f o => .fault f o
      | .ret st' read' o => .ok st' read' o
      | .brk st1 read1 mtype o =>
        let frame := offset + read1
        let len : Int := readInt32BE buffer (frame + 1) - 4
        let total : Int := len + 5
        if (size : Int) < total + read1 then
          .ok { st1 with expect := total.toNat } read1 o
        else
          let start := frame + 5
          match stepSwitch st1 buffer start len.toNat mtype with
          | .error (f, o2) => .fault f (o ++ o2)
          | .ok (st2, o2) =>
            receiveLoop buffer offset size fuel
              { st2 with expect := 5 } (read1 + total.toNat) (o ++ o2)

/-- `Client.receive(buffer, offset, size)`. -/
def receive (st : DState) (buffer : List Nat) (offset size : Nat) :
    ReceiveResult :=
  receiveLoop buffer offset size (size + 1) st 0 []

/-! ## Frames and their wire encoding -/

/-- One protocol frame: tag byte plus payload.  On the wire it is encoded
as tag, 4-byte big-endian length (self-inclusive, tag-exclusive), payload. -/
structure Frame where
  tag : Nat
  payload : List Nat
deriving Repr, DecidableEq

/-- The signed value `readInt8` produces for a tag byte. -/
def tagInt (t : Nat) : Int := if t < 128 then (t : Int) else (t : Int) - 256

def encodeFrame (f : Frame) : List Nat :=
  f.tag :: int32be (4 + f.payload.length) ++ f.payload

/-- Total encoded size of a frame (header plus payload). -/
def encSize (f : Frame) : Nat := 5 + f.payload.length

def encodeFrames : List Frame → List Nat
  | [] => []
  | f :: fs => encodeFrame f ++ encodeFrames fs

/-- Does the frame take the fast path (row data or no data)? -/
def isRowish (f : Frame) : Bool :=
  tagInt f.tag = msgRowData ∨ tagInt f.tag = msgNoData

/-- Well-formedness of the `ParameterStatus` payload: it contains the two
null terminators the dispatcher searches for. -/
def ParamStatusWF (p : List Nat) : Prop :=
  ∃ i, indexOfZero p 0 = some i ∧ (indexOfZero p (i + 1)).isSome

/-- A well-formed frame: byte-valued content, a representable length, and
payload extents large enough that every read the dispatcher performs on
the frame stays inside it (a "no data" frame carries no payload). -/
def WFFrame (f : Frame) : Prop :=
  f.tag < 256 ∧ (∀ b ∈ f.payload, b < 256) ∧ 4 + f.payload.length < 2 ^ 31 ∧
  (tagInt f.tag = msgNoData → f.payload = []) ∧
  (tagInt f.tag = msgAuthenticate → 4 ≤ f.payload.length) ∧
  (tagInt f.tag = msgBackendKeyData → 8 ≤ f.payload.length) ∧
  (tagInt f.tag = msgParameterDescription →
    2 ≤ f.payload.length ∧ byteAt f.payload 0 < 128 ∧
    2 + 4 * (readInt16BE f.payload 0).toNat ≤ f.payload.length) ∧
  (tagInt f.tag = msgParameterStatus → ParamStatusWF f.payload) ∧
  (tagInt f.tag = msgReadyForQuery → 1 ≤ f.payload.length)

/-- The frame-at-a-time reference machine: what `receive` does to a single
complete frame.  The fast path activates (if needed) and delivers the row
(or, for "no data" with no active context, only the sentinel); every other
tag goes through the dispatch switch, reading from the frame's own
encoding. -/
def stepFrame (st : DState) (f : Frame) :
    Except (Fault × List Out) (DState × List Out) :=
  let mtype := tagInt f.tag
  if mtype = msgRowData ∨ mtype = msgNoData then
    match fastActivate st (mtype = msgNoData) with
    | .error fl => .error (fl, [])
    | .ok (st1, o1) =>
      match st1.activeInfo with
      | some (h, d) => .ok (st1, o1 ++ [Out.row h d f.payload])
      | none => .ok (st1, o1)
  else stepSwitch st (encodeFrame f) 5 f.payload.length mtype

/-- Process a list of complete frames in order, accumulating outputs; stop
at the first fault, keeping the outputs emitted before it. -/
def processFrames (st : DState) :
    List Frame → Except (Fault × List Out) (DState × List Out)
  | [] => .ok (st, [])
  | f :: fs =>
    match stepFrame st f with
    | .error (fl, o) => .error (fl, o)
    | .ok (st1, o1) =>
      match processFrames st1 fs with
      | .ok (st2, o2) => .ok (st2, o1 ++ o2)
      | .error (fl, o2) => .error (fl, o1 ++ o2)

/-! ## The byte reassembler (the stream `'data'` handler,
`client.ts:163-187`) -/

/-- Node's `src.copy(target, targetStart, sourceStart, sourceEnd)` on the
list model (with Node's clamping to the available source/target extents). -/
def bufCopy (src target : List Nat)
    (targetStart sourceStart sourceEnd : Nat) : List Nat :=
  let n := min (sourceEnd - sourceStart) (src.length - sourceStart)
  let m := min n (target.length - targetStart)
  target.take targetStart ++ (src.drop sourceStart).take m ++
    target.drop (targetStart + m)

/-- The connection's receive-side state: the reassembly buffer with its
offset/unread bookkeeping, plus the dispatcher state. -/
structure ClientState where
  buffer : Option (List Nat)
  offset : Nat
  remaining : Nat
  dst : DState
deriving Repr, DecidableEq

/-- The buffer-growth policy of the `'data'` handler: returns the buffer
and offset with which `receive` is invoked.  `allocUnsafe` is modelled as a
zero list of the requested size (its contents are fully overwritten by the
two copies). -/
def mergeChunk (cs : ClientState) (chunk : List Nat) : List Nat × Nat :=
  match cs.buffer with
  | some b =>
    if cs.remaining ≠ 0 then
      let free : Int := (b.length : Int) - cs.offset - cs.remaining
      let tail := cs.offset + cs.remaining
      if free < (chunk.length : Int) then
        let newBuffer :=
          bufCopy b (List.replicate (chunk.length + cs.remaining) 0)
            0 cs.offset tail
        (bufCopy chunk newBuffer cs.remaining 0 chunk.length, 0)
      else
        (bufCopy chunk b tail 0 chunk.length, cs.offset)
    else (chunk, 0)
  | none => (chunk, 0)

inductive FeedResult where
  | ok (cs : ClientState) (outs : List Out)
  | fault (f : Fault) (outs : List Out)
deriving Repr, DecidableEq

/-- One firing of the `'data'` handler: merge the chunk per the growth
policy, run `receive`, and update the offset/remaining bookkeeping. -/
def onDataChunk (cs : ClientState) (chunk : List Nat) : FeedResult :=
  let size := chunk.length + cs.remaining
  let bo := mergeChunk cs chunk
  match receive cs.dst bo.1 bo.2 size with
  | .ok dst' read outs =>
    .ok ⟨some bo.1, bo.2 + read, size - read, dst'⟩ outs
  | .fault f outs => .fault f outs

/-- Feed a sequence of chunks through the handler, concatenating outputs. -/
def feedChunks (cs : ClientState) : List (List Nat) → FeedResult
  | [] => .ok cs []
  | c :: rest =>
    match onDataChunk cs c with
    | .fault f o => .fault f o
    | .ok cs1 o1 =>
      match feedChunks cs1 rest with
      | .ok cs2 o2 => .ok cs2 (o1 ++ o2)
      | .fault f o2 => .fault f (o1 ++ o2)

/-- A freshly connected client: no buffer, nothing unread. -/
def initialClient (dst : DState) : ClientState := ⟨none, 0, 0, dst⟩

/-- The outputs of a feed, whether or not it ended in a fault. -/
def feedOuts (r : FeedResult) : List Out :=
  match r with
  | .ok _ o => o
  | .fault _ o => o

/-! ## The result pipeline (`result.ts`) -/

/-- The live state of one `ResultIterator`: the append-only row container,
the completion flag, the delivered names, the promise's settled value (set
at most once), and the waiting consumers (as opaque identifiers, in
subscription order). -/
structure RState where
  rows : List (List Nat)
  done : Bool
  names : Option (List Nat)
  resolved : Option (List Nat × List (List Nat))
  subscribers : List Nat
deriving Repr, DecidableEq

/-- `ResultIterator.notify` (`result.ts:30-33`): latch the completion flag
when signalled done, then broadcast the signal to every current
subscriber.  The returned list records each subscriber resumption and the
boolean it observes. -/
def notifyR (st : RState) (d : Bool) : RState × List (Nat × Bool) :=
  let st1 := if d then { st with done := true } else st
  (st1, st1.subscribers.map (fun s => (s, d)))

/-- The `onData` callback of `makeResult` (`result.ts:85-96`): a `null` row
resolves the promise (first time only: a settled promise ignores later
resolutions) and signals completion; a real row is appended then
broadcast.  `finish` is always set: the `Promise` executor runs
synchronously inside the constructor. -/
def resultOnData (st : RState) (row : Option (List Nat)) :
    RState × List (Nat × Bool) :=
  match row with
  | none =>
    let st1 :=
      if st.resolved.isNone then
        { st with resolved := some (st.names.getD [], st.rows) }
      else st
    notifyR st1 true
  | some r => notifyR { st with rows := st.rows ++ [r] } false

/-- The `onNames` callback of `makeResult` (`result.ts:98-100`). -/
def resultOnNames (st : RState) (ns : List Nat) : RState :=
  { st with names := some ns }

/-- The state of the `ResultIterator` produced by `makeResult` before any
delivery. -/
def makeResultState : RState := ⟨[], false, none, none, []⟩

/-- What one `next()` call observes at cursor `i` against a quiescent
stream state (`result.ts:46-63`): a buffered row, immediate completion, or
a suspension (pushing a subscriber and awaiting a signal). -/
inductive IterStep where
  | yieldRow (v : List Nat)
  | finished
  | suspend
deriving Repr, DecidableEq

def nextStep (st : RState) (i : Nat) : IterStep :=
  if st.rows.length ≤ i then
    (if st.done then .finished else .suspend)
  else .yieldRow (st.rows.getD i [])

/-- Drive a fresh iteration against a quiescent stream state until it
finishes or suspends; returns the yielded rows and whether it finished
without suspending. -/
def drainFrom (st : RState) : Nat → Nat → List (List Nat) × Bool
  | 0, _ => ([], false)
  | fuel + 1, i =>
    match nextStep st i with
    | .finished => ([], true)
    | .suspend => ([], false)
    | .yieldRow v =>
      let r := drainFrom st fuel (i + 1)
      (v :: r.1, r.2)

def drainAll (st : RState) : List (List Nat) × Bool :=
  drainFrom st (st.rows.length + 1) 0

/-! ## Event registration (`Client.on`, `client.ts:264-288`) -/

/-- The per-event subscription lists of the client's typed events
(modelled from the spec: the `ts-typed-events` collaborator keeps, for each
event, the ordered list of registered callbacks; `on` appends and `emit`
invokes exactly the stored callbacks). -/
structure Listeners where
  connect : List Nat
  endEvt : List Nat
  parameter : List Nat
  error : List Nat
  notice : List Nat
deriving Repr, DecidableEq

/-- `Client.on(event, callback)`: the `switch` has cases for `'connect'`,
`'end'`, `'error'` and `'notice'` only; any other event name (including
`'parameter'`) falls through without registering anything. -/
def clientOn (event : String) (callback : Nat) (l : Listeners) : Listeners :=
  if event = "connect" then { l with connect := l.connect ++ [callback] }
  else if event = "end" then { l with endEvt := l.endEvt ++ [callback] }
  else if event = "error" then { l with error := l.error ++ [callback] }
  else if event = "notice" then { l with notice := l.notice ++ [callback] }
  else l

/-- The callbacks invoked when `this.events.parameter.emit(...)` runs
(`client.ts:517-520`): exactly the stored parameter subscribers. -/
def emitParameter (l : Listeners) : List Nat := l.parameter

/-- A concrete quiescent dispatcher state used by the concrete-input
theorems below: `expect = 5`, all registries empty, no active context. -/
def exampleD : DState :=
  ⟨5, [], [], [], [], none, false, none, none, none, false⟩

/-- A quiescent dispatcher state with one pending row consumer (callback
id 7), used by the concrete-input theorems below. -/
def exampleD1 : DState :=
  ⟨5, [7], [], [], [], none, false, none, none, none, false⟩

/-- A dispatcher state with an active delivery context (consumer 7, empty
row description), used by the concrete-input theorems below. -/
def exampleDA : DState :=
  ⟨5, [], [], [], [], some (7, []), false, none, none, none, false⟩

/-- A dispatcher state with two pending row consumers (7 then 8) and two
pending row descriptions, used by the concrete-input theorems below. -/
def exampleD2 : DState :=
  ⟨5, [7, 8], [], [[1], [2]], [], none, false, none, none, none, false⟩

/-- The consumer id a dispatched output delivers a row to, if any. -/
def rowHandler : Out → Option Nat
  | Out.row h _ _ => some h
  | _ => none

/-- The effective consumer queue: the active context's consumer (if any)
followed by the pending row consumers, in FIFO order. -/
def queueOf (st : DState) : List Nat :=
  (match st.activeInfo with
  | some hd => [hd.1]
  | none => []) ++ st.dataHandlers

/-- Total encoded length of a frame list. -/
def encLen (fs : List Frame) : Nat := (encodeFrames fs).length

/-- What follows the complete frames of a reassembled region: fewer than
five bytes (not even a header), the strict prefix of a general-path frame
whose header is present, or the strict prefix of a row-data frame whose
header is present. -/
inductive TailCase where
  | short
  | general (g : Frame)
  | rowPart (g : Frame)

/-- Well-formedness of a tail `t` (the unread bytes after the last
complete frame) for each tail case. -/
def TailOk (t : List Nat) : TailCase → Prop
  | .short => t.length < 5
  | .general g => t = (encodeFrame g).take t.length ∧ 5 ≤ t.length ∧
      t.length < encSize g ∧ WFFrame g ∧ isRowish g = false
  | .rowPart g => t = (encodeFrame g).take t.length ∧ 5 ≤ t.length ∧
      t.length < encSize g ∧ WFFrame g ∧ tagInt g.tag = msgRowData

/-- The result of a `receive` call that has processed all complete frames
and stopped at the given tail: how `expect` is left, and — for a partial
row-data frame — the early consumer activation the fast path performs
before discovering the frame is incomplete. -/
def tailResult (st1 : DState) (pos : Nat) (acc : List Out) :
    TailCase → ReceiveResult
  | .short => .ok { st1 with expect := 5 } pos acc
  | .general g => .ok { st1 with expect := encSize g } pos acc
  | .rowPart g =>
    match fastActivate st1 false with
    | .error fl => .fault fl acc
    | .ok (st2, o2) => .ok { st2 with expect := encSize g } pos (acc ++ o2)

/-- The relation between the dispatcher state carried across chunk
boundaries and the reference frame-machine state `dm`, given the unread
tail `p` and the remaining frames `gs`: either nothing is pending beyond
a sub-header stub (`expect` back at 5 and the states agree), or a frame
header is pending with `expect` set to that frame's full size — with the
early consumer activation already performed when the pending frame is row
data. -/
def DispInv (dm : DState) (gs : List Frame) (p : List Nat) (d : DState) :
    Prop :=
  (p.length < 5 ∧ d = dm) ∨
  (∃ g gs2, gs = g :: gs2 ∧ p = (encodeFrame g).take p.length ∧
    5 ≤ p.length ∧ p.length < encSize g ∧ isRowish g = false ∧
    d = { dm with expect := encSize g }) ∨
  (∃ g gs2 a, gs = g :: gs2 ∧ p = (encodeFrame g).take p.length ∧
    5 ≤ p.length ∧ p.length < encSize g ∧ tagInt g.tag = msgRowData ∧
    fastActivate dm false = .ok (a, []) ∧
    d = { a with expect := encSize g })

/-- The partial-frame witness of a tail case is the head of the remaining
frames. -/
def TailNext (gs2 : List Frame) : TailCase → Prop
  | .short => True
  | .general g => ∃ gs3, gs2 = g :: gs3
  | .rowPart g => ∃ gs3, gs2 = g :: gs3

/-! ## Basic byte/list lemmas -/

theorem byteAt_eq_of_drop {u v : List Nat} {k : Nat} (h : u.drop k = v)
    (i : Nat) : byteAt u (k + i) = byteAt v i := by
  simp only [byteAt, List.getD_eq_getElem?_getD]
  rw [← List.getElem?_drop, h]

theorem byteAt_eq_of_drop0 {u v : List Nat} {k : Nat} (h : u.drop k = v) :
    byteAt u k = byteAt v 0 := by
  simpa using byteAt_eq_of_drop h 0

@[simp] theorem int32be_length (n : Nat) : (int32be n).length = 4 := rfl

theorem readInt8_eq_tagInt (u : List Nat) (i : Nat) :
    readInt8 u i = tagInt (byteAt u i) := rfl

theorem readUInt32BE_eq_of_drop {u v : List Nat} {k : Nat}
    (h : u.drop k = v) : readUInt32BE u k = readUInt32BE v 0 := by
  have h0 := byteAt_eq_of_drop0 h
  have h1 := byteAt_eq_of_drop h 1
  have h2 := byteAt_eq_of_drop h 2
  have h3 := byteAt_eq_of_drop h 3
  simp [readUInt32BE, h0, h1, h2, h3]

theorem readUInt32BE_int32be (n : Nat) (hn : n < 2 ^ 32)
    (rest : List Nat) : readUInt32BE (int32be n ++ rest) 0 = n := by
  simp only [int32be, List.cons_append, List.nil_append, readUInt32BE,
    byteAt, List.getD_cons_zero, List.getD_cons_succ]
  omega

theorem readInt32BE_int32be (n : Nat) (hn : n < 2 ^ 31)
    (rest : List Nat) : readInt32BE (int32be n ++ rest) 0 = (n : Int) := by
  have : readUInt32BE (int32be n ++ rest) 0 = n :=
    readUInt32BE_int32be n (by omega) rest
  simp only [readInt32BE, this]
  rw [if_pos (by omega)]

@[simp] theorem encodeFrame_length (f : Frame) :
    (encodeFrame f).length = encSize f := by
  simp [encodeFrame, encSize]
  omega

theorem encodeFrame_eq (f : Frame) :
    encodeFrame f = (f.tag :: int32be (4 + f.payload.length)) ++ f.payload := by
  simp [encodeFrame]

theorem encodeFrames_append (a b : List Frame) :
    encodeFrames (a ++ b) = encodeFrames a ++ encodeFrames b := by
  induction a with
  | nil => simp [encodeFrames]
  | cons f fs ih => simp [encodeFrames, ih]

theorem encodeFrames_length_ge (fs : List Frame) :
    5 * fs.length ≤ (encodeFrames fs).length := by
  induction fs with
  | nil => simp [encodeFrames]
  | cons f fs ih =>
    simp only [encodeFrames, List.length_append, List.length_cons,
      encodeFrame_length]
    simp [encSize]
    omega

/-- Reading the tag byte of a frame located at position `k`. -/
theorem readInt8_frame {u rest : List Nat} {k : Nat} {f : Frame}
    (h : u.drop k = encodeFrame f ++ rest) :
    readInt8 u k = tagInt f.tag := by
  rw [readInt8_eq_tagInt, byteAt_eq_of_drop0 h]
  simp [encodeFrame, byteAt]

/-- Reading the length field of a frame located at position `k`. -/
theorem readInt32BE_frame {u rest : List Nat} {k : Nat} {f : Frame}
    (h : u.drop k = encodeFrame f ++ rest)
    (hlen : 4 + f.payload.length < 2 ^ 31) :
    readInt32BE u (k + 1) = ((4 + f.payload.length : Nat) : Int) := by
  have hdrop : u.drop (k + 1) = int32be (4 + f.payload.length) ++
      (f.payload ++ rest) := by
    have : u.drop (k + 1) = (u.drop k).drop 1 := by
      rw [List.drop_drop]
    rw [this, h, encodeFrame_eq]
    simp
  have : readUInt32BE u (k + 1) =
      readUInt32BE (int32be (4 + f.payload.length) ++ (f.payload ++ rest)) 0 :=
    readUInt32BE_eq_of_drop hdrop
  rw [readInt32BE, this, readUInt32BE_int32be _ (by omega)]
  rw [if_pos (by omega)]

/-- Extracting the payload of a frame located at position `k`. -/
theorem payload_frame {u rest : List Nat} {k : Nat} {f : Frame}
    (h : u.drop k = encodeFrame f ++ rest) :
    (u.drop (k + 5)).take f.payload.length = f.payload := by
  have hdrop : u.drop (k + 5) = f.payload ++ rest := by
    have h5 : u.drop (k + 5) = (u.drop k).drop 5 := by rw [List.drop_drop]
    rw [h5, h, encodeFrame_eq, List.append_assoc]
    have hl : (f.tag :: int32be (4 + f.payload.length)).length = 5 := by simp
    rw [← hl, List.drop_left]
  rw [hdrop, List.take_left]

/-- The bytes after a frame located at position `k`. -/
theorem drop_after_frame {u rest : List Nat} {k : Nat} {f : Frame}
    (h : u.drop k = encodeFrame f ++ rest) :
    u.drop (k + encSize f) = rest := by
  have h5 : u.drop (k + encSize f) = (u.drop k).drop (encSize f) := by
    rw [List.drop_drop]
  rw [h5, h, ← encodeFrame_length, List.drop_left]

theorem drop_length_of_eq {u v : List Nat} {k : Nat} (h : u.drop k = v)
    (hk : k ≤ u.length) : u.length = k + v.length := by
  have := congrArg List.length h
  simp [List.length_drop] at this
  omega

/-- A position whose suffix starts with an encoded frame is in range. -/
theorem read_le_length {u rest : List Nat} {k : Nat} {f : Frame}
    (h : u.drop k = encodeFrame f ++ rest) : k ≤ u.length := by
  by_contra hk
  push_neg at hk
  rw [List.drop_eq_nil_of_le (le_of_lt hk)] at h
  have := congrArg List.length h
  simp [encSize] at this
  omega

theorem frame_length_decomp {u rest : List Nat} {k : Nat} {f : Frame}
    (h : u.drop k = encodeFrame f ++ rest) :
    u.length = k + encSize f + rest.length := by
  have hk := read_le_length h
  have := drop_length_of_eq h hk
  simp [encSize] at this
  simp [encSize]
  omega

theorem byteAt_append_left {l₁ l₂ : List Nat} {i : Nat}
    (hi : i < l₁.length) : byteAt (l₁ ++ l₂) i = byteAt l₁ i := by
  simp only [byteAt, List.getD_eq_getElem?_getD, List.getElem?_append,
    if_pos hi]

/-- The payload of a frame located at position `k`, as a suffix. -/
theorem drop_payload {u rest : List Nat} {k : Nat} {f : Frame}
    (h : u.drop k = encodeFrame f ++ rest) :
    u.drop (k + 5) = f.payload ++ rest := by
  have h5 : u.drop (k + 5) = (u.drop k).drop 5 := by rw [List.drop_drop]
  rw [h5, h, encodeFrame_eq, List.append_assoc]
  have hl : (f.tag :: int32be (4 + f.payload.length)).length = 5 := by simp
  rw [← hl, List.drop_left]

@[simp] theorem encodeFrame_drop5 (f : Frame) :
    (encodeFrame f).drop 5 = f.payload := by
  have := @drop_payload (encodeFrame f) [] 0 f (by simp)
  simpa using this

/-- The dispatcher's reads into a frame's payload see the same bytes in
the full reassembled buffer as in the frame's own encoding. -/
theorem byteAt_payload_agree {u rest : List Nat} {read : Nat} {f : Frame}
    (hu : u.drop read = encodeFrame f ++ rest) {i : Nat}
    (hi : i < f.payload.length) :
    byteAt u (read + 5 + i) = byteAt (encodeFrame f) (5 + i) := by
  have h1 : u.drop (read + 5) = f.payload ++ rest := drop_payload hu
  have h2 : (encodeFrame f).drop 5 = f.payload := encodeFrame_drop5 f
  rw [byteAt_eq_of_drop h1 i, byteAt_eq_of_drop h2 i,
    byteAt_append_left hi]

theorem readUInt32BE_agree {u v : List Nat} {a b : Nat}
    (h : ∀ i, i < 4 → byteAt u (a + i) = byteAt v (b + i)) :
    readUInt32BE u a = readUInt32BE v b := by
  have h0 := h 0 (by omega)
  have h1 := h 1 (by omega)
  have h2 := h 2 (by omega)
  have h3 := h 3 (by omega)
  simp only [Nat.add_zero] at h0
  unfold readUInt32BE
  rw [h0, h1, h2, h3]

theorem readInt32BE_agree {u v : List Nat} {a b : Nat}
    (h : ∀ i, i < 4 → byteAt u (a + i) = byteAt v (b + i)) :
    readInt32BE u a = readInt32BE v b := by
  unfold readInt32BE
  rw [readUInt32BE_agree h]

theorem readInt16BE_agree {u v : List Nat} {a b : Nat}
    (h : ∀ i, i < 2 → byteAt u (a + i) = byteAt v (b + i)) :
    readInt16BE u a = readInt16BE v b := by
  have h0 := h 0 (by omega)
  have h1 := h 1 (by omega)
  simp only [Nat.add_zero] at h0
  unfold readInt16BE
  rw [h0, h1]

/-- Slice agreement inside the payload: a slice of the reassembled buffer
that stays inside the frame's payload equals the same slice of the frame's
own encoding. -/
theorem slice_payload_agree {u rest : List Nat} {read : Nat} {f : Frame}
    (hu : u.drop read = encodeFrame f ++ rest) {a len : Nat}
    (hal : a + len ≤ f.payload.length) :
    (u.drop (read + 5 + a)).take len =
      ((encodeFrame f).drop (5 + a)).take len := by
  have h1 : u.drop (read + 5 + a) = f.payload.drop a ++ rest.drop
      (a - f.payload.length) := by
    have : u.drop (read + 5 + a) = (u.drop (read + 5)).drop a := by
      rw [List.drop_drop]
    rw [this, drop_payload hu, List.drop_append_eq_append_drop]
  have h2 : (encodeFrame f).drop (5 + a) = f.payload.drop a := by
    have : (encodeFrame f).drop (5 + a) = ((encodeFrame f).drop 5).drop a := by
      rw [List.drop_drop]
    rw [this, encodeFrame_drop5]
  rw [h1, h2, List.take_append_eq_append_take]
  have hlen : len ≤ (f.payload.drop a).length := by
    simp [List.length_drop]
    omega
  rw [Nat.sub_eq_zero_of_le hlen, List.take_zero, List.append_nil]

/-! ### `findZeroIdx` locality -/

theorem findZeroIdx_append_left {l₁ l₂ : List Nat} {j : Nat}
    (h : findZeroIdx l₁ = some j) :
    findZeroIdx (l₁ ++ l₂) = some j := by
  induction l₁ generalizing j with
  | nil => simp [findZeroIdx] at h
  | cons b rest ih =>
    by_cases hb : b = 0
    · rw [findZeroIdx, if_pos hb] at h
      rw [List.cons_append, findZeroIdx, if_pos hb]
      exact h
    · rw [findZeroIdx, if_neg hb] at h
      rw [Option.map_eq_some'] at h
      obtain ⟨k, hk, hkj⟩ := h
      rw [List.cons_append, findZeroIdx, if_neg hb, ih hk,
        Option.map_some', hkj]

theorem findZeroIdx_lt_length {l : List Nat} {j : Nat}
    (h : findZeroIdx l = some j) : j < l.length := by
  induction l generalizing j with
  | nil => simp [findZeroIdx] at h
  | cons b rest ih =>
    by_cases hb : b = 0
    · simp [findZeroIdx, hb] at h
      simp [← h]
    · rw [findZeroIdx, if_neg hb, Option.map_eq_some'] at h
      obtain ⟨k, hk, hkj⟩ := h
      have := ih hk
      simp only [List.length_cons]
      omega

theorem indexOfZero_some {buf : List Nat} {i r : Nat}
    (h : findZeroIdx (buf.drop i) = some r) :
    indexOfZero buf i = some (r + i) := by
  simp [indexOfZero, h]

/-- `jsSlice` with in-range non-negative endpoints is plain take/drop. -/
theorem jsSlice_of_le {buf : List Nat} {s e : Nat} (hs : s ≤ buf.length)
    (he : e ≤ buf.length) :
    jsSlice buf (s : Int) (e : Int) = (buf.drop s).take (e - s) := by
  have h1 : (if (s : Int) < 0 then max 0 ((buf.length : Int) + s)
      else min (s : Int) (buf.length : Int)).toNat = s := by
    rw [if_neg (by omega)]
    omega
  have h2 : (if (e : Int) < 0 then max 0 ((buf.length : Int) + e)
      else min (e : Int) (buf.length : Int)).toNat = e := by
    rw [if_neg (by omega)]
    omega
  simp only [jsSlice, h1, h2]

theorem byteAt_payload_agree_off {u rest : List Nat} {read : Nat}
    {f : Frame} (hu : u.drop read = encodeFrame f ++ rest) {a i : Nat}
    (h : a + i < f.payload.length) :
    byteAt u (read + 5 + a + i) = byteAt (encodeFrame f) (5 + a + i) := by
  have h1 : read + 5 + a + i = read + 5 + (a + i) := by omega
  have h2 : 5 + a + i = 5 + (a + i) := by omega
  rw [h1, h2]
  exact byteAt_payload_agree hu h

/-- Locality of the general-path dispatch switch: every read it performs
on the reassembled buffer stays inside the current frame, so dispatching
from the full buffer at the frame's position is the same as dispatching
from the frame's own encoding. -/
theorem stepSwitch_localized (st : DState) {u rest : List Nat}
    {read : Nat} {f : Frame} (hu : u.drop read = encodeFrame f ++ rest)
    (hwf : WFFrame f) :
    stepSwitch st u (read + 5) f.payload.length (tagInt f.tag) =
      stepSwitch st (encodeFrame f) 5 f.payload.length (tagInt f.tag) := by
  obtain ⟨-, -, -, -, hAu, hBk, hPd, hPs, hRq⟩ := hwf
  have hulen : u.length = read + encSize f + rest.length :=
    frame_length_decomp hu
  have hpayR : ((encodeFrame f).drop 5).take f.payload.length =
      f.payload := by
    rw [encodeFrame_drop5, List.take_length]
  have hpayL : (u.drop (read + 5)).take f.payload.length = f.payload :=
    payload_frame hu
  by_cases h1 : tagInt f.tag = msgAuthenticate
  · have h4 := hAu h1
    have hr : readInt32BE u (read + 5) = readInt32BE (encodeFrame f) 5 := by
      refine readInt32BE_agree (fun i hi => ?_)
      have := byteAt_payload_agree hu (show i < f.payload.length by omega)
      simpa using this
    simp only [stepSwitch, if_pos h1, hr]
  by_cases h2 : tagInt f.tag = msgBackendKeyData
  · have h8 := hBk h2
    have hr1 : readInt32BE u (read + 5) = readInt32BE (encodeFrame f) 5 := by
      refine readInt32BE_agree (fun i hi => ?_)
      have := byteAt_payload_agree hu (show i < f.payload.length by omega)
      simpa using this
    have hr2 : readInt32BE u (read + 5 + 4) =
        readInt32BE (encodeFrame f) (5 + 4) := by
      refine readInt32BE_agree (fun i hi => ?_)
      exact byteAt_payload_agree_off hu (by omega)
    simp only [stepSwitch, if_neg h1, if_pos h2, hr1, hr2]
  by_cases h3 : tagInt f.tag = msgBindComplete
  · simp only [stepSwitch, if_neg h1, if_neg h2, if_pos h3]
  by_cases h4 : tagInt f.tag = msgClose
  · simp only [stepSwitch, if_neg h1, if_neg h2, if_neg h3, if_pos h4]
  by_cases h5 : tagInt f.tag = msgCloseComplete
  · simp only [stepSwitch, if_neg h1, if_neg h2, if_neg h3, if_neg h4,
      if_pos h5]
  by_cases h6 : tagInt f.tag = msgError
  · simp only [stepSwitch, if_neg h1, if_neg h2, if_neg h3, if_neg h4,
      if_neg h5, if_pos h6, hpayL, hpayR]
  by_cases h7 : tagInt f.tag = msgNotice
  · simp only [stepSwitch, if_neg h1, if_neg h2, if_neg h3, if_neg h4,
      if_neg h5, if_neg h6, if_pos h7, hpayL, hpayR]
  by_cases h8 : tagInt f.tag = msgParseComplete
  · simp only [stepSwitch, if_neg h1, if_neg h2, if_neg h3, if_neg h4,
      if_neg h5, if_neg h6, if_neg h7, if_pos h8]
  by_cases h9 : tagInt f.tag = msgParameterDescription
  · obtain ⟨hl2, hby0, hcnt⟩ := hPd h9
    have hrp : readInt16BE (encodeFrame f) 5 = readInt16BE f.payload 0 := by
      refine readInt16BE_agree (fun i hi => ?_)
      have h0 : byteAt (encodeFrame f) (5 + i) = byteAt f.payload i :=
        byteAt_eq_of_drop (encodeFrame_drop5 f) i
      simpa using h0
    have hr16 : readInt16BE u (read + 5) = readInt16BE (encodeFrame f) 5 := by
      refine readInt16BE_agree (fun i hi => ?_)
      have := byteAt_payload_agree hu (show i < f.payload.length by omega)
      simpa using this
    have hbound : 2 + 4 * (readInt16BE (encodeFrame f) 5).toNat ≤
        f.payload.length := by
      rw [hrp]
      exact hcnt
    have hmapeq : (List.range (readInt16BE (encodeFrame f) 5).toNat).map
          (fun i => readInt32BE u (read + 5 + 2 + i * 4)) =
        (List.range (readInt16BE (encodeFrame f) 5).toNat).map
          (fun i => readInt32BE (encodeFrame f) (5 + 2 + i * 4)) := by
      refine List.map_congr_left (fun i hi => ?_)
      rw [List.mem_range] at hi
      refine readInt32BE_agree (fun j hj => ?_)
      have ha : read + 5 + 2 + i * 4 + j = read + 5 + (2 + i * 4) + j := by
        omega
      have hb : 5 + 2 + i * 4 + j = 5 + (2 + i * 4) + j := by omega
      rw [ha, hb]
      exact byteAt_payload_agree_off hu (by omega)
    simp only [stepSwitch, if_neg h1, if_neg h2, if_neg h3, if_neg h4,
      if_neg h5, if_neg h6, if_neg h7, if_neg h8, if_pos h9, hr16, hmapeq]
  by_cases h10 : tagInt f.tag = msgParameterStatus
  · obtain ⟨i0, hi0, hj0s⟩ := hPs h10
    have hfz : findZeroIdx f.payload = some i0 := by
      rw [indexOfZero] at hi0
      simp only [List.drop_zero] at hi0
      rcases Option.map_eq_some'.mp hi0 with ⟨k, hk, hki⟩
      have hk2 : k = i0 := by omega
      rw [← hk2]
      exact hk
    obtain ⟨j0, hj0⟩ := Option.isSome_iff_exists.mp hj0s
    rw [indexOfZero] at hj0
    rcases Option.map_eq_some'.mp hj0 with ⟨r, hr, hrj⟩
    have hi0lt : i0 < f.payload.length := findZeroIdx_lt_length hfz
    have hrlt : r < f.payload.length - (i0 + 1) := by
      have := findZeroIdx_lt_length hr
      simpa [List.length_drop] using this
    have hdropL : u.drop (read + 5) = f.payload ++ rest := drop_payload hu
    have hioL : indexOfZero u (read + 5) = some (i0 + (read + 5)) := by
      apply indexOfZero_some
      rw [hdropL]
      exact findZeroIdx_append_left hfz
    have hjiL : jsIndexOfZero u (read + 5) =
        ((i0 + (read + 5) : Nat) : Int) := by
      simp [jsIndexOfZero, hioL]
    have hdrop2L : u.drop (read + 5 + (i0 + 1)) =
        f.payload.drop (i0 + 1) ++ rest := by
      rw [← List.drop_drop, hdropL, List.drop_append_eq_append_drop,
        Nat.sub_eq_zero_of_le (by omega), List.drop_zero]
    have hio2L : indexOfZero u (read + 5 + (i0 + 1)) =
        some (r + (read + 5 + (i0 + 1))) := by
      apply indexOfZero_some
      rw [hdrop2L]
      exact findZeroIdx_append_left hr
    have hioR : indexOfZero (encodeFrame f) 5 = some (i0 + 5) := by
      apply indexOfZero_some
      rw [encodeFrame_drop5]
      exact hfz
    have hjiR : jsIndexOfZero (encodeFrame f) 5 =
        ((i0 + 5 : Nat) : Int) := by
      simp [jsIndexOfZero, hioR]
    have hdrop2R : (encodeFrame f).drop (5 + (i0 + 1)) =
        f.payload.drop (i0 + 1) := by
      rw [← List.drop_drop, encodeFrame_drop5]
    have hio2R : indexOfZero (encodeFrame f) (5 + (i0 + 1)) =
        some (r + (5 + (i0 + 1))) := by
      apply indexOfZero_some
      rw [hdrop2R]
      exact hr
    have hencl : (encodeFrame f).length = 5 + f.payload.length := by
      simp [encSize]
    have hul2 : u.length = read + (5 + f.payload.length) + rest.length := by
      rw [hulen]
      simp [encSize]
    have hsle1 : read + 5 ≤ u.length := by omega
    have hsle2 : i0 + (read + 5) ≤ u.length := by omega
    have hz1 : i0 + (read + 5) - (read + 5) ≤
        (List.take i0 (f.payload ++ rest)).length := by
      simp [List.length_take]
      omega
    have hnameL : jsSlice u ((read + 5 : Nat) : Int)
        ((i0 + (read + 5) : Nat) : Int) = f.payload.take i0 := by
      rw [jsSlice_of_le hsle1 hsle2]
      rw [hdropL, List.take_append_eq_append_take]
      have hz : i0 + (read + 5) - (read + 5) - f.payload.length = 0 := by
        omega
      rw [hz, List.take_zero, List.append_nil]
      congr 1
      omega
    have hnameR : jsSlice (encodeFrame f) ((5 : Nat) : Int)
        ((i0 + 5 : Nat) : Int) = f.payload.take i0 := by
      rw [jsSlice_of_le (by rw [hencl]; omega) (by rw [hencl]; omega)]
      rw [encodeFrame_drop5]
      have hz : i0 + 5 - 5 = i0 := by omega
      rw [hz]
    have hsle3 : read + 5 + (i0 + 1) ≤ u.length := by omega
    have hsle4 : r + (read + 5 + (i0 + 1)) ≤ u.length := by omega
    have hvalL : jsSlice u ((i0 + (read + 5) + 1 : Nat) : Int)
        ((r + (read + 5 + (i0 + 1)) : Nat) : Int) =
        (f.payload.drop (i0 + 1)).take r := by
      have harg : i0 + (read + 5) + 1 = read + 5 + (i0 + 1) := by omega
      rw [harg, jsSlice_of_le hsle3 hsle4]
      rw [hdrop2L, List.take_append_eq_append_take]
      have hz : r + (read + 5 + (i0 + 1)) - (read + 5 + (i0 + 1)) -
          (f.payload.drop (i0 + 1)).length = 0 := by
        simp [List.length_drop]
        omega
      rw [hz, List.take_zero, List.append_nil]
      congr 1
      omega
    have hvalR : jsSlice (encodeFrame f) ((i0 + 5 + 1 : Nat) : Int)
        ((r + (5 + (i0 + 1)) : Nat) : Int) =
        (f.payload.drop (i0 + 1)).take r := by
      have harg : i0 + 5 + 1 = 5 + (i0 + 1) := by omega
      rw [harg, jsSlice_of_le (by rw [hencl]; omega) (by rw [hencl]; omega)]
      rw [hdrop2R]
      congr 1
      omega
    simp only [stepSwitch, if_neg h1, if_neg h2, if_neg h3, if_neg h4,
      if_neg h5, if_neg h6, if_neg h7, if_neg h8, if_neg h9, if_pos h10,
      hjiL, hjiR]
    have hc1 : ((((i0 + (read + 5) : Nat) : Int)) + 1).toNat =
        read + 5 + (i0 + 1) := by
      push_cast
      omega
    have hc2 : ((((i0 + 5 : Nat) : Int)) + 1).toNat = 5 + (i0 + 1) := by
      push_cast
      omega
    rw [hc1, hc2]
    have hji2L : jsIndexOfZero u (read + 5 + (i0 + 1)) =
        ((r + (read + 5 + (i0 + 1)) : Nat) : Int) := by
      simp [jsIndexOfZero, hio2L]
    have hji2R : jsIndexOfZero (encodeFrame f) (5 + (i0 + 1)) =
        ((r + (5 + (i0 + 1)) : Nat) : Int) := by
      simp [jsIndexOfZero, hio2R]
    rw [hji2L, hji2R]
    have hcast3 : (((i0 + (read + 5) : Nat) : Int)) + 1 =
        ((i0 + (read + 5) + 1 : Nat) : Int) := by push_cast; ring
    have hcast4 : (((i0 + 5 : Nat) : Int)) + 1 =
        ((i0 + 5 + 1 : Nat) : Int) := by push_cast; ring
    rw [hcast3, hcast4, hnameL, hnameR, hvalL, hvalR]
  by_cases h11 : tagInt f.tag = msgReadyForQuery
  · have hp1 := hRq h11
    have hr8 : readInt8 u (read + 5) = readInt8 (encodeFrame f) 5 := by
      have hb : byteAt u (read + 5) = byteAt (encodeFrame f) 5 := by
        have := byteAt_payload_agree hu (show 0 < f.payload.length by omega)
        simpa using this
      rw [readInt8_eq_tagInt, readInt8_eq_tagInt, hb]
    simp only [stepSwitch, if_neg h1, if_neg h2, if_neg h3, if_neg h4,
      if_neg h5, if_neg h6, if_neg h7, if_neg h8, if_neg h9, if_neg h10,
      if_pos h11, hr8]
  by_cases h12 : tagInt f.tag = msgRowDescription
  · simp only [stepSwitch, if_neg h1, if_neg h2, if_neg h3, if_neg h4,
      if_neg h5, if_neg h6, if_neg h7, if_neg h8, if_neg h9, if_neg h10,
      if_neg h11, if_pos h12, readRowDescription, hpayL, hpayR]
  · simp only [stepSwitch, if_neg h1, if_neg h2, if_neg h3, if_neg h4,
      if_neg h5, if_neg h6, if_neg h7, if_neg h8, if_neg h9, if_neg h10,
      if_neg h11, if_neg h12]


/-! ## C5: the error/notice parser is all-or-nothing -/

theorem truthy_getD {o : Option (List Nat)} (h : truthy o = true) :
    o.getD [] ≠ [] := by
  cases o with
  | none => simp [truthy] at h
  | some s =>
    simp only [truthy, Bool.not_eq_true'] at h
    simpa [List.isEmpty_iff] using h

/-- C5: for every input byte slice, `parseError` either returns a result
whose severity, code and message fields are all populated (non-empty), or
throws the parse fault; it never returns a partially populated result. -/
theorem parseError_complete_or_fault (buf : List Nat) :
    (∃ r, parseError buf = Except.ok r ∧
      r.level ≠ [] ∧ r.code ≠ [] ∧ r.message ≠ []) ∨
    parseError buf = Except.error Fault.unableToParseError := by
  unfold parseError
  rcases parseErrorFields buf (buf.length + 1) 0 none none none with ⟨l, c, m⟩
  by_cases h : truthy l = true ∧ truthy c = true ∧ truthy m = true
  · left
    refine ⟨⟨l.getD [], c.getD [], m.getD []⟩, ?_, truthy_getD h.1,
      truthy_getD h.2.1, truthy_getD h.2.2⟩
    simp only []
    rw [if_pos ⟨h.1, h.2.1, h.2.2⟩]
  · right
    simp only []
    rw [if_neg (by tauto)]

/-! ## C10: a present-but-empty required field is treated as absent -/

/-- C10: whenever the field scan produces an empty string for any of the
three required fields (severity, code, message), `parseError` throws the
parse fault instead of returning a result with an empty field —
JavaScript's truthiness check `level && code && message` treats `""` like
`null`. -/
theorem parseError_empty_required_faults (buf : List Nat)
    (l c m : Option (List Nat))
    (hf : parseErrorFields buf (buf.length + 1) 0 none none none = (l, c, m))
    (he : l = some [] ∨ c = some [] ∨ m = some []) :
    parseError buf = Except.error Fault.unableToParseError := by
  unfold parseError
  rw [hf]
  rcases he with h | h | h <;> subst h <;>
    simp [truthy]

/-- Witness for C10 at the concrete payload `V"E"\0 C"X"\0 M""\0`: all
three tags are present, the message value is empty, and the parse
faults. -/
theorem parseError_empty_required_faults_witness :
    parseErrorFields [0x56, 69, 0, 0x43, 88, 0, 0x4d, 0] 9 0 none none none =
      (some [69], some [88], some []) ∧
    parseError [0x56, 69, 0, 0x43, 88, 0, 0x4d, 0] =
      Except.error Fault.unableToParseError := by
  refine ⟨by decide, ?_⟩
  exact parseError_empty_required_faults _ (some [69]) (some [88]) (some [])
    (by decide) (Or.inr (Or.inr rfl))

/-! ## C9: `on('parameter', ...)` is a silent no-op -/

/-- C9: registering a callback through `Client.on` under the event name
`'parameter'` changes nothing — the `switch` has no `'parameter'` case —
so a later `ParameterStatus` emission still invokes exactly the previously
stored parameter subscribers, never the newly supplied callback. -/
theorem on_parameter_is_noop (cb : Nat) (l : Listeners) :
    clientOn "parameter" cb l = l ∧
    emitParameter (clientOn "parameter" cb l) = l.parameter := by
  unfold clientOn
  rw [if_neg (by decide), if_neg (by decide), if_neg (by decide),
    if_neg (by decide)]
  exact ⟨rfl, rfl⟩

/-! ## C8: completion idempotence of the result stream -/

theorem drainFrom_done (st : RState) (hd : st.done = true) :
    ∀ fuel i, st.rows.length - i < fuel →
      drainFrom st fuel i = (st.rows.drop i, true) := by
  intro fuel
  induction fuel with
  | zero => intro i h; omega
  | succ n ih =>
    intro i h
    by_cases hle : st.rows.length ≤ i
    · have hstep : nextStep st i = .finished := by
        simp [nextStep, hle, hd]
      simp [drainFrom, hstep, List.drop_eq_nil_of_le hle]
    · push_neg at hle
      have hstep : nextStep st i = .yieldRow (st.rows.getD i []) := by
        simp [nextStep]
        omega
      simp only [drainFrom, hstep]
      rw [ih (i + 1) (by omega)]
      rw [List.drop_eq_getElem_cons hle, List.getD_eq_getElem _ _ hle]

/-- C8: once the stream has observed the end-of-stream sentinel
(`done = true`, promise settled), a consumer that starts iterating
afterwards receives every buffered row exactly once, in order, and then an
immediate done signal, never suspending; and a further (defensive)
sentinel delivery leaves the state unchanged while still broadcasting
`true` to every subscriber that joined in the meantime, so none of them
waits forever. -/
theorem completed_stream_iteration (st : RState) (hd : st.done = true)
    (hr : st.resolved.isSome = true) :
    drainAll st = (st.rows, true) ∧
    resultOnData st none = (st, st.subscribers.map (fun s => (s, true))) := by
  constructor
  · have := drainFrom_done st hd (st.rows.length + 1) 0 (by omega)
    simpa [drainAll] using this
  · have hnone : st.resolved.isNone = false := by
      cases h2 : st.resolved <;> simp_all
    have heq : { st with done := true } = st := by
      cases st
      simp_all
    simp [resultOnData, notifyR, hnone, heq]

/-- Witness for C8 at a concrete completed stream with two buffered rows
and one late subscriber. -/
theorem completed_stream_iteration_witness :
    (⟨[[1], [2]], true, some [5], some ([5], [[1], [2]]), [4]⟩ : RState).done
        = true ∧
    drainAll ⟨[[1], [2]], true, some [5], some ([5], [[1], [2]]), [4]⟩ =
      ([[1], [2]], true) ∧
    resultOnData ⟨[[1], [2]], true, some [5], some ([5], [[1], [2]]), [4]⟩
        none =
      (⟨[[1], [2]], true, some [5], some ([5], [[1], [2]]), [4]⟩,
        [(4, true)]) := by
  refine ⟨rfl, ?_⟩
  have := completed_stream_iteration
    ⟨[[1], [2]], true, some [5], some ([5], [[1], [2]]), [4]⟩ rfl rfl
  simpa using this

/-! ## C7: the reassembly buffer growth policy -/

/-- C7: merging a newly arrived chunk of length `L` into a buffer holding
`R` unread bytes at `offset` follows the growth policy: when the free
space after the unread region is smaller than `L`, a buffer of exactly
`R + L` bytes is allocated, the unread bytes are copied to its start with
the offset reset to `0`, and the chunk appended; otherwise the chunk is
appended in place (same buffer length, same offset); in both cases the
result is a contiguous region of `R + L` unread bytes equal to the old
unread bytes followed by the chunk. -/
theorem mergeChunk_growth_policy (cs : ClientState) (b chunk : List Nat)
    (hb : cs.buffer = some b) (hR : cs.remaining ≠ 0)
    (hinv : cs.offset + cs.remaining ≤ b.length) :
    (((mergeChunk cs chunk).1.drop (mergeChunk cs chunk).2).take
        (cs.remaining + chunk.length) =
      (b.drop cs.offset).take cs.remaining ++ chunk) ∧
    ((b.length : Int) - cs.offset - cs.remaining < chunk.length →
      (mergeChunk cs chunk).1.length = cs.remaining + chunk.length ∧
      (mergeChunk cs chunk).2 = 0) ∧
    ((chunk.length : Int) ≤ (b.length : Int) - cs.offset - cs.remaining →
      (mergeChunk cs chunk).1.length = b.length ∧
      (mergeChunk cs chunk).2 = cs.offset) := by
  have hlu : ((b.drop cs.offset).take cs.remaining).length = cs.remaining := by
    simp [List.length_take, List.length_drop]
    omega
  by_cases hfree : (b.length : Int) - cs.offset - cs.remaining < chunk.length
  · -- reallocation branch
    have hmc : mergeChunk cs chunk =
        (bufCopy chunk
          (bufCopy b (List.replicate (chunk.length + cs.remaining) 0)
            0 cs.offset (cs.offset + cs.remaining))
          cs.remaining 0 chunk.length, 0) := by
      simp [mergeChunk, hb, hR, hfree]
    have hnew : bufCopy b (List.replicate (chunk.length + cs.remaining) 0)
        0 cs.offset (cs.offset + cs.remaining) =
        (b.drop cs.offset).take cs.remaining ++
          List.replicate chunk.length 0 := by
      simp only [bufCopy]
      have h1 : min (cs.offset + cs.remaining - cs.offset)
          (b.length - cs.offset) = cs.remaining := by omega
      rw [h1]
      have h2 : min cs.remaining
          ((List.replicate (chunk.length + cs.remaining) 0).length - 0) =
          cs.remaining := by
        simp [List.length_replicate]
      rw [h2]
      simp [List.drop_replicate]
    have hfinal : bufCopy chunk
        ((b.drop cs.offset).take cs.remaining ++
          List.replicate chunk.length 0) cs.remaining 0 chunk.length =
        (b.drop cs.offset).take cs.remaining ++ chunk := by
      simp only [bufCopy]
      have h1 : min (chunk.length - 0) (chunk.length - 0) = chunk.length := by
        omega
      rw [h1]
      have h2 : min chunk.length
          (((b.drop cs.offset).take cs.remaining ++
            List.replicate chunk.length 0).length - cs.remaining) =
          chunk.length := by
        simp [hlu]
      rw [h2]
      rw [List.take_left' hlu]
      simp only [List.drop_zero, List.take_length]
      have h3 : (((b.drop cs.offset).take cs.remaining ++
          List.replicate chunk.length 0)).length =
          cs.remaining + chunk.length := by
        simp [hlu]
      rw [List.drop_eq_nil_of_le (le_of_eq h3)]
      simp
    rw [hmc, hnew, hfinal]
    have hlen : ((b.drop cs.offset).take cs.remaining ++ chunk).length =
        cs.remaining + chunk.length := by simp [hlu]
    refine ⟨?_, fun _ => ⟨hlen, rfl⟩, fun h => absurd h (by omega)⟩
    simp only [List.drop_zero]
    rw [List.take_of_length_le (by rw [hlen])]
  · -- in-place branch
    push_neg at hfree
    have hroom : cs.offset + cs.remaining + chunk.length ≤ b.length := by
      omega
    have hmc : mergeChunk cs chunk =
        (bufCopy chunk b (cs.offset + cs.remaining) 0 chunk.length,
          cs.offset) := by
      simp only [mergeChunk, hb]
      rw [if_pos hR, if_neg (not_lt.mpr hfree)]
    have hcopy : bufCopy chunk b (cs.offset + cs.remaining) 0 chunk.length =
        b.take (cs.offset + cs.remaining) ++ chunk ++
          b.drop (cs.offset + cs.remaining + chunk.length) := by
      simp only [bufCopy]
      have h1 : min (chunk.length - 0) (chunk.length - 0) = chunk.length := by
        omega
      rw [h1]
      have h2 : min chunk.length (b.length - (cs.offset + cs.remaining)) =
          chunk.length := by omega
      rw [h2]
      simp [List.append_assoc]
    have htl : (b.take (cs.offset + cs.remaining)).length =
        cs.offset + cs.remaining := by
      simp [List.length_take]
      omega
    rw [hmc, hcopy]
    refine ⟨?_, fun h => absurd h (by omega), fun _ => ⟨?_, rfl⟩⟩
    · rw [List.append_assoc, List.drop_append_eq_append_drop]
      have hd1 : (b.take (cs.offset + cs.remaining)).drop cs.offset =
          (b.drop cs.offset).take cs.remaining := by
        rw [List.drop_take]
        congr 1
        omega
      rw [hd1, List.take_append_eq_append_take]
      rw [List.take_of_length_le (by rw [hlu]; omega)]
      rw [hlu]
      have : cs.remaining + chunk.length - cs.remaining = chunk.length := by
        omega
      rw [this]
      have hoff : cs.offset - (b.take (cs.offset + cs.remaining)).length
          = 0 := by
        rw [htl]; omega
      rw [hoff]
      simp only [List.drop_zero]
      rw [List.take_append_eq_append_take, List.take_of_length_le (le_refl _),
        Nat.sub_self, List.take_zero, List.append_nil]
    · simp only [List.length_append, htl, List.length_drop]
      omega

/-- Witness for C7: buffer `[1,2,3,4]` with unread `[2,3]` at offset 1,
incoming chunk `[9,9,9]`; free space 1 < 3 forces reallocation. -/
theorem mergeChunk_growth_policy_witness :
    ((⟨some [1, 2, 3, 4], 1, 2, exampleD⟩ : ClientState).remaining ≠ 0 ∧
      1 + 2 ≤ ([1, 2, 3, 4] : List Nat).length) ∧
    ((mergeChunk ⟨some [1, 2, 3, 4], 1, 2, exampleD⟩ [9, 9, 9]).1.drop
        (mergeChunk ⟨some [1, 2, 3, 4], 1, 2, exampleD⟩ [9, 9, 9]).2).take
      (2 + 3) = [2, 3] ++ [9, 9, 9] :=
  ⟨⟨by decide, by decide⟩,
    (mergeChunk_growth_policy ⟨some [1, 2, 3, 4], 1, 2, exampleD⟩
      [1, 2, 3, 4] [9, 9, 9] rfl (by decide) (by decide)).1⟩

/-! ## C6: the no-data path completes with zero rows -/

/-- C6: a "no data" frame arriving with no active delivery context pops
the next row consumer and delivers the end-of-stream sentinel to it
immediately (and nothing else); on the result side, delivering the
sentinel to a fresh result stream resolves the awaited promise with the
empty snapshot (no names, zero rows) and marks the stream done — no
fault anywhere. -/
theorem noData_completes_empty (st : DState) (h : Nat) (hs : List Nat)
    (hdh : st.dataHandlers = h :: hs) (hai : st.activeInfo = none)
    (hex : st.expect = 5) :
    receive st (encodeFrame ⟨110, []⟩) 0 5 =
      .ok { st with dataHandlers := hs } 5 [Out.endOfRows h] ∧
    resultOnData makeResultState none =
      ({ makeResultState with done := true, resolved := some ([], []) },
        []) := by
  cases st with
  | mk expect dataHandlers nameHandlers rowDescriptions preparedStatements
      activeInfo ready transactionStatus processId secretKey connecting =>
    simp only [DState.mk.injEq] at *
    subst hex hdh hai
    exact ⟨rfl, rfl⟩

/-- Witness for C6 at a concrete state with one pending row consumer. -/
theorem noData_completes_empty_witness :
    ({ exampleD with dataHandlers := [7] } : DState).dataHandlers = [7] ∧
    receive { exampleD with dataHandlers := [7] } (encodeFrame ⟨110, []⟩)
        0 5 = .ok exampleD 5 [Out.endOfRows 7] :=
  ⟨rfl, (noData_completes_empty { exampleD with dataHandlers := [7] }
    7 [] rfl rfl rfl).1⟩

/-! ## C3: which empty-registry pops actually fault

The claim says popping any of the four FIFO registries empty raises the
fatal fault, "in particular" for a parameter-description frame with no
pending prepared-statement context.  The source only throws for the
row-consumer pop (`'Unexpected data received.'`) and the row-description
pop (`'Row description expected.'`); `Message.ParameterDescription` guards
the popped context with `if (ps) { ... }` and silently ignores the frame
when the queue is empty, and `Message.RowDescription` guards the popped
name consumer with `if (handler)` and silently skips delivery. -/

/-- C3 counterexample: a parameter-description frame (tag `t`, declaring
zero parameters) arriving with an empty prepared-statement registry is
dispatched without any fault — `receive` returns `ok`, consuming the whole
frame and emitting nothing, contradicting the claimed fatal "unexpected
data" condition. -/
theorem paramDescription_empty_registry_no_fault :
    receive exampleD (encodeFrame ⟨116, [0, 0]⟩) 0 7 =
      .ok exampleD 7 [] := by
  decide


/-! ## Per-frame characterization of the two dispatch loops -/

theorem isRowish_iff (f : Frame) : isRowish f = true ↔
    (tagInt f.tag = msgRowData ∨ tagInt f.tag = msgNoData) := by
  simp [isRowish]

/-- One complete row-data / no-data frame at the cursor: the fast path
performs exactly the frame step and either returns (when fewer than 5
bytes remain after the frame) or continues the loop. -/
theorem fastLoop_row_step (st : DState) {u rest : List Nat} {read : Nat}
    {f : Frame} (acc : List Out) (fuel : Nat)
    (hu : u.drop read = encodeFrame f ++ rest)
    (hrow : isRowish f = true) (hwf : WFFrame f) :
    fastLoop u 0 u.length (fuel + 1) st read acc =
      (match stepFrame st f with
      | .error (fl, o) => FastResult.fault fl (acc ++ o)
      | .ok (st1, o) =>
        if u.length < read + encSize f + 5 then
          FastResult.ret { st1 with expect := 5 } (read + encSize f)
            (acc ++ o)
        else fastLoop u 0 u.length fuel st1 (read + encSize f)
          (acc ++ o)) := by
  have hlen4 : 4 + f.payload.length < 2 ^ 31 := hwf.2.2.1
  have htag : readInt8 u read = tagInt f.tag := readInt8_frame hu
  have hlenr : readInt32BE u (read + 1) =
      ((4 + f.payload.length : Nat) : Int) := readInt32BE_frame hu hlen4
  have hbytes : (readInt32BE u (read + 1) + 1).toNat = encSize f := by
    rw [hlenr]
    simp [encSize]
    omega
  have hdecomp : u.length = read + encSize f + rest.length :=
    frame_length_decomp hu
  have hrowp := (isRowish_iff f).mp hrow
  have hrowdata : readRowData u (read + 5) (encSize f - 5) = f.payload := by
    unfold readRowData
    have h5 : encSize f - 5 = f.payload.length := by simp [encSize]
    rw [h5]
    exact payload_frame hu
  simp only [fastLoop, Nat.zero_add, htag, stepFrame]
  rw [if_pos hrowp, if_pos hrowp]
  cases hact : fastActivate st (decide (tagInt f.tag = msgNoData)) with
  | error fl => simp
  | ok pair =>
    obtain ⟨st1, o1⟩ := pair
    simp only [hbytes]
    cases hai : st1.activeInfo with
    | some hd =>
      obtain ⟨h, d⟩ := hd
      dsimp only
      rw [if_neg (show ¬(u.length < encSize f + read) from by omega)]
      simp only [hrowdata]
      by_cases hfit : u.length < read + encSize f + 5
      · simp [hfit, hai, List.append_assoc]
      · simp [hfit, hai, List.append_assoc]
    | none =>
      dsimp only
      by_cases hfit : u.length < read + encSize f + 5
      · simp [hfit, hai]
      · simp [hfit, hai]

/-- One complete general-path frame at the cursor: the outer loop performs
exactly the frame step (via the locality of the dispatch switch) and
continues with `expect` reset to 5. -/
theorem receiveLoop_general_step (st : DState) {u rest : List Nat}
    {read : Nat} {f : Frame} (acc : List Out) (fuel : Nat)
    (hu : u.drop read = encodeFrame f ++ rest)
    (hnr : isRowish f = false) (hwf : WFFrame f)
    (hexp : st.expect ≤ encSize f) :
    receiveLoop u 0 u.length (fuel + 1) st read acc =
      (match stepFrame st f with
      | .error (fl, o2) => ReceiveResult.fault fl (acc ++ o2)
      | .ok (st2, o2) =>
        receiveLoop u 0 u.length fuel { st2 with expect := 5 }
          (read + encSize f) (acc ++ o2)) := by
  have hlen4 : 4 + f.payload.length < 2 ^ 31 := hwf.2.2.1
  have htag : readInt8 u read = tagInt f.tag := readInt8_frame hu
  have hlenr : readInt32BE u (read + 1) =
      ((4 + f.payload.length : Nat) : Int) := readInt32BE_frame hu hlen4
  have hdecomp : u.length = read + encSize f + rest.length :=
    frame_length_decomp hu
  have hnrp : ¬(tagInt f.tag = msgRowData ∨ tagInt f.tag = msgNoData) := by
    intro hcon
    rw [← isRowish_iff] at hcon
    rw [hnr] at hcon
    exact Bool.false_ne_true hcon
  have hencw : encSize f = 5 + f.payload.length := rfl
  simp only [receiveLoop]
  rw [if_neg (by omega)]
  simp only [fastLoop, Nat.zero_add, htag]
  rw [if_neg hnrp]
  simp only [hlenr]
  rw [if_neg (by push_cast; omega)]
  have hlt : ((4 + f.payload.length : Nat) : Int) - 4 = f.payload.length := by
    push_cast
    omega
  have hlt2 : (((4 + f.payload.length : Nat) : Int) - 4).toNat =
      f.payload.length := by
    omega
  have htot : (((4 + f.payload.length : Nat) : Int) - 4 + 5).toNat =
      encSize f := by
    rw [hencw]
    omega
  have hstep : stepSwitch st u (read + 5)
      ((((4 + f.payload.length : Nat) : Int) - 4).toNat) (tagInt f.tag) =
      stepFrame st f := by
    rw [hlt2]
    rw [stepSwitch_localized st hu hwf]
    rw [stepFrame]
    rw [if_neg hnrp]
  rw [hstep, htot]

/-! ## Run-level helpers -/

theorem encSize_ge (f : Frame) : 5 ≤ encSize f := by
  simp [encSize]

@[simp] theorem encLen_nil : encLen [] = 0 := rfl

theorem encLen_cons (f : Frame) (fs : List Frame) :
    encLen (f :: fs) = encSize f + encLen fs := by
  simp [encLen, encodeFrames]

theorem encLen_cons_ge (f : Frame) (fs : List Frame) :
    5 ≤ encLen (f :: fs) := by
  rw [encLen_cons]
  have := encSize_ge f
  omega

/-- For a row-data tag, a successful activation installs an active
context and emits nothing. -/
theorem fastActivate_row_ok {st st1 : DState} {o1 : List Out}
    (h : fastActivate st false = .ok (st1, o1)) :
    (∃ hd, st1.activeInfo = some hd) ∧ o1 = [] := by
  unfold fastActivate at h
  cases hai : st.activeInfo with
  | some hd =>
    rw [hai] at h
    simp only [Except.ok.injEq, Prod.mk.injEq] at h
    obtain ⟨h1, h2⟩ := h
    subst h1
    subst h2
    exact ⟨⟨hd, hai⟩, rfl⟩
  | none =>
    rw [hai] at h
    cases hdh : st.dataHandlers with
    | nil =>
      rw [hdh] at h
      simp at h
    | cons hh hs =>
      rw [hdh] at h
      simp only [Bool.false_eq_true, if_false] at h
      cases hrd : st.rowDescriptions with
      | nil =>
        rw [hrd] at h
        simp at h
      | cons dd ds =>
        rw [hrd] at h
        simp only [Except.ok.injEq, Prod.mk.injEq] at h
        obtain ⟨h1, h2⟩ := h
        subst h1
        subst h2
        exact ⟨⟨(hh, dd), rfl⟩, rfl⟩

theorem byteAt_partial {u : List Nat} {read n : Nat} {g : Frame}
    (hp : u.drop read = (encodeFrame g).take n) {i : Nat} (hi : i < n) :
    byteAt u (read + i) = byteAt (encodeFrame g) i := by
  rw [byteAt_eq_of_drop hp i]
  simp only [byteAt, List.getD_eq_getElem?_getD, List.getElem?_take,
    if_pos hi]

theorem partial_tag {u : List Nat} {read n : Nat} {g : Frame}
    (hp : u.drop read = (encodeFrame g).take n) (h5 : 5 ≤ n) :
    readInt8 u read = tagInt g.tag := by
  rw [readInt8_eq_tagInt]
  have h0 : byteAt u (read + 0) = byteAt (encodeFrame g) 0 :=
    byteAt_partial hp (by omega)
  simp only [Nat.add_zero] at h0
  rw [h0]
  simp [encodeFrame, byteAt]

theorem partial_len {u : List Nat} {read n : Nat} {g : Frame}
    (hp : u.drop read = (encodeFrame g).take n) (h5 : 5 ≤ n)
    (hlen : 4 + g.payload.length < 2 ^ 31) :
    readInt32BE u (read + 1) = ((4 + g.payload.length : Nat) : Int) := by
  have hagree : readInt32BE u (read + 1) = readInt32BE (encodeFrame g) 1 := by
    refine readInt32BE_agree (fun i hi => ?_)
    have h1 : read + 1 + i = read + (1 + i) := by omega
    rw [h1]
    exact byteAt_partial hp (by omega)
  rw [hagree]
  have := @readInt32BE_frame (encodeFrame g) [] 0 g (by simp) hlen
  simpa using this

/-- The fast path breaks out immediately on a non-row tag. -/
theorem fastLoop_brk {u : List Nat} {size : Nat} (st : DState)
    (read : Nat) (acc : List Out) (fuel : Nat) {m : Int}
    (htag : readInt8 u read = m)
    (hm : ¬(m = msgRowData ∨ m = msgNoData)) :
    fastLoop u 0 size (fuel + 1) st read acc = .brk st read m acc := by
  simp only [fastLoop, Nat.zero_add, htag]
  rw [if_neg hm]

/-- An incomplete row-data frame with its header present: the fast path
activates a delivery context (possibly faulting), records the frame's full
size in `expect`, and returns without consuming the partial frame. -/
theorem fastLoop_partial_row {u : List Nat} {read n : Nat} {g : Frame}
    (st : DState) (acc : List Out) (fuel : Nat)
    (hp : u.drop read = (encodeFrame g).take n) (h5 : 5 ≤ n)
    (hn : n = u.length - read) (hr : read ≤ u.length)
    (hlt : n < encSize g) (hrow : tagInt g.tag = msgRowData)
    (hwf : WFFrame g) :
    fastLoop u 0 u.length (fuel + 1) st read acc =
      (match fastActivate st false with
      | .error fl => FastResult.fault fl acc
      | .ok (st1, o1) =>
        FastResult.ret { st1 with expect := encSize g } read (acc ++ o1)) := by
  have htag : readInt8 u read = tagInt g.tag := partial_tag hp h5
  have hlen4 : 4 + g.payload.length < 2 ^ 31 := hwf.2.2.1
  have hlenr : readInt32BE u (read + 1) =
      ((4 + g.payload.length : Nat) : Int) := partial_len hp h5 hlen4
  have hbytes : (readInt32BE u (read + 1) + 1).toNat = encSize g := by
    rw [hlenr]
    simp [encSize]
    omega
  have hnodata : (decide (tagInt g.tag = msgNoData)) = false := by
    rw [hrow]
    decide
  simp only [fastLoop, Nat.zero_add, htag]
  rw [if_pos (Or.inl hrow), hnodata]
  cases hact : fastActivate st false with
  | error fl => rfl
  | ok pair =>
    obtain ⟨st1, o1⟩ := pair
    obtain ⟨⟨hd, hai⟩, rfl⟩ := fastActivate_row_ok hact
    simp only [hbytes, hai]
    obtain ⟨h, d⟩ := hd
    dsimp only
    rw [if_pos (by omega)]

/-- The fast path over a run of complete row-data / no-data frames:
process them all via the frame machine; if afterwards fewer than 5 bytes
remain (and at least one frame was consumed) return with `expect = 5`,
otherwise continue the loop at the position after the run. -/
theorem fastLoop_run {u : List Nat} (rs : List Frame) :
    ∀ (t : List Nat) (st : DState) (read : Nat) (acc : List Out)
      (fuel : Nat),
    (∀ f ∈ rs, isRowish f = true ∧ WFFrame f) →
    u.drop read = encodeFrames rs ++ t →
    fastLoop u 0 u.length (fuel + rs.length + 1) st read acc =
      (match processFrames st rs with
      | .error (fl, o) => FastResult.fault fl (acc ++ o)
      | .ok (st1, o) =>
        if 0 < rs.length ∧ u.length < read + encLen rs + 5 then
          FastResult.ret { st1 with expect := 5 } (read + encLen rs)
            (acc ++ o)
        else fastLoop u 0 u.length (fuel + 1) st1 (read + encLen rs)
          (acc ++ o)) := by
  induction rs with
  | nil =>
    intro t st read acc fuel hall hu
    simp [processFrames, encLen, encodeFrames]
  | cons f rs' ih =>
    intro t st read acc fuel hall hu
    obtain ⟨hrow, hwf⟩ := hall f (by simp)
    have hu1 : u.drop read = encodeFrame f ++ (encodeFrames rs' ++ t) := by
      rw [hu]
      simp [encodeFrames, List.append_assoc]
    have hrst : u.drop (read + encSize f) = encodeFrames rs' ++ t :=
      drop_after_frame hu1
    have hfuel : fuel + (f :: rs').length + 1 = (fuel + rs'.length + 1) + 1 := by
      simp [List.length_cons]
      omega
    rw [hfuel, fastLoop_row_step st acc (fuel + rs'.length + 1) hu1 hrow hwf]
    cases hsf : stepFrame st f with
    | error pair =>
      obtain ⟨fl, o⟩ := pair
      simp [processFrames, hsf]
    | ok pair =>
      obtain ⟨stA, oA⟩ := pair
      dsimp only
      have hlen : u.length =
          read + encSize f + ((encodeFrames rs').length + t.length) := by
        have := frame_length_decomp hu1
        simpa using this
      by_cases hfit : u.length < read + encSize f + 5
      · have hrs' : rs' = [] := by
          cases hgs : rs' with
          | nil => rfl
          | cons g gs =>
            exfalso
            have h5 : 5 ≤ encLen (g :: gs) := encLen_cons_ge g gs
            rw [encLen] at h5
            rw [hgs] at hlen
            omega
        subst hrs'
        rw [if_pos hfit]
        simp [processFrames, hsf, encLen, encodeFrames, hfit]
      · rw [if_neg hfit]
        rw [ih t stA (read + encSize f) (acc ++ oA) fuel
          (fun g hg => hall g (by simp [hg])) hrst]
        cases hpf : processFrames stA rs' with
        | error pair2 =>
          obtain ⟨fl2, o2⟩ := pair2
          simp [processFrames, hsf, hpf, List.append_assoc]
        | ok pair2 =>
          obtain ⟨stB, oB⟩ := pair2
          simp only [processFrames, hsf, hpf]
          have harr : read + encSize f + encLen rs' =
              read + encLen (f :: rs') := by
            rw [encLen_cons]
            omega
          by_cases hrs0 : rs' = []
          · subst hrs0
            simp only [processFrames, Except.ok.injEq, Prod.mk.injEq] at hpf
            obtain ⟨h1, h2⟩ := hpf
            subst h1
            subst h2
            have hc1 : ¬(0 < ([] : List Frame).length ∧
                u.length < read + encSize f + encLen ([] : List Frame) + 5) := by
              simp
            have hc2 : ¬(0 < (f :: ([] : List Frame)).length ∧
                u.length < read + encLen (f :: []) + 5) := by
              simp only [encLen_cons, encLen_nil]
              push_neg
              intro _
              omega
            rw [if_neg hc1, if_neg hc2]
            simp [encLen, encodeFrames]
          · have hpos : 0 < rs'.length := by
              cases rs' with
              | nil => exact absurd rfl hrs0
              | cons a b => simp
            by_cases hfit2 : u.length < read + encLen (f :: rs') + 5
            · rw [if_pos ⟨hpos, by omega⟩, if_pos ⟨by simp, hfit2⟩]
              rw [harr]
              simp [List.append_assoc]
            · rw [if_neg (by push_neg; intro _; omega),
                if_neg (by push_neg; intro _; omega)]
              rw [harr]
              simp [List.append_assoc]

/-! ## Composition helpers -/

theorem set_expect_eq {st : DState} {e : Nat} (h : st.expect = e) :
    { st with expect := e } = st := by
  cases st
  cases h
  rfl

theorem encLen_append (a b : List Frame) :
    encLen (a ++ b) = encLen a + encLen b := by
  simp [encLen, encodeFrames_append]

theorem drop_after_frames {u rest : List Nat} {read : Nat}
    {fs : List Frame} (h : u.drop read = encodeFrames fs ++ rest) :
    u.drop (read + encLen fs) = rest := by
  have h2 : u.drop (read + encLen fs) = (u.drop read).drop (encLen fs) := by
    rw [List.drop_drop]
  rw [h2, h, encLen, List.drop_left]

theorem processFrames_append (st : DState) (a b : List Frame) :
    processFrames st (a ++ b) =
      (match processFrames st a with
      | .error e => .error e
      | .ok (s1, o1) =>
        match processFrames s1 b with
        | .ok (s2, o2) => .ok (s2, o1 ++ o2)
        | .error (fl, o2) => .error (fl, o1 ++ o2)) := by
  induction a generalizing st with
  | nil =>
    simp only [List.nil_append, processFrames]
    cases hb : processFrames st b with
    | error pair => obtain ⟨fl, o⟩ := pair; simp
    | ok pair => obtain ⟨s2, o2⟩ := pair; simp
  | cons f fs ih =>
    simp only [List.cons_append, processFrames]
    cases hsf : stepFrame st f with
    | error pair => obtain ⟨fl, o⟩ := pair; rfl
    | ok pair =>
      obtain ⟨s1, o1⟩ := pair
      dsimp only
      simp only [List.append_eq]
      rw [ih s1]
      cases hfs : processFrames s1 fs with
      | error pair2 =>
        obtain ⟨fl2, o2⟩ := pair2
        simp [hfs]
      | ok pair2 =>
        obtain ⟨s2, o2⟩ := pair2
        cases hb : processFrames s2 b with
        | error pair3 =>
          obtain ⟨fl3, o3⟩ := pair3
          simp [hfs, hb, List.append_assoc]
        | ok pair3 =>
          obtain ⟨s3, o3⟩ := pair3
          simp [hfs, hb, List.append_assoc]

theorem dropWhile_head_not {p : Frame → Bool} :
    ∀ {l : List Frame} {g : Frame} {gs : List Frame},
    l.dropWhile p = g :: gs → p g = false := by
  intro l
  induction l with
  | nil => intro g gs h; simp [List.dropWhile] at h
  | cons x xs ih =>
    intro g gs h
    by_cases hx : p x
    · rw [List.dropWhile_cons, if_pos hx] at h
      exact ih h
    · rw [List.dropWhile_cons, if_neg hx] at h
      obtain ⟨rfl, -⟩ := List.cons.inj h
      exact Bool.of_not_eq_true hx

/-! ## Bridging `receiveLoop` to `fastLoop` outcomes -/

theorem receiveLoop_entry_exit {u : List Nat} (st : DState) (read : Nat)
    (acc : List Out) (fuel : Nat) (h : u.length < st.expect + read) :
    receiveLoop u 0 u.length (fuel + 1) st read acc = .ok st read acc := by
  simp only [receiveLoop]
  rw [if_pos h]

theorem receiveLoop_of_ret {u : List Nat} {st st' : DState}
    {read r : Nat} {acc o : List Out} (fuel : Nat)
    (hentry : ¬u.length < st.expect + read)
    (hfl : fastLoop u 0 u.length (u.length + 1) st read acc =
      .ret st' r o) :
    receiveLoop u 0 u.length (fuel + 1) st read acc = .ok st' r o := by
  simp only [receiveLoop]
  rw [if_neg hentry, hfl]

theorem receiveLoop_of_fault {u : List Nat} {st : DState} {read : Nat}
    {acc o : List Out} {fl : Fault} (fuel : Nat)
    (hentry : ¬u.length < st.expect + read)
    (hfl : fastLoop u 0 u.length (u.length + 1) st read acc =
      .fault fl o) :
    receiveLoop u 0 u.length (fuel + 1) st read acc = .fault fl o := by
  simp only [receiveLoop]
  rw [if_neg hentry, hfl]

/-- After the fast path breaks at a complete general-path frame, the outer
loop dispatches that frame and continues. -/
theorem receiveLoop_after_brk {u rest2 : List Nat} {st st1 : DState}
    {read read1 : Nat} {acc o1 : List Out} {g : Frame} (fuel : Nat)
    (hentry : ¬u.length < st.expect + read)
    (hfl : fastLoop u 0 u.length (u.length + 1) st read acc =
      .brk st1 read1 (tagInt g.tag) o1)
    (hg : u.drop read1 = encodeFrame g ++ rest2)
    (hwf : WFFrame g) (hnr : isRowish g = false) :
    receiveLoop u 0 u.length (fuel + 1) st read acc =
      (match stepFrame st1 g with
      | .error (fl, o2) => ReceiveResult.fault fl (o1 ++ o2)
      | .ok (st2, o2) =>
        receiveLoop u 0 u.length fuel { st2 with expect := 5 }
          (read1 + encSize g) (o1 ++ o2)) := by
  have hlen4 : 4 + g.payload.length < 2 ^ 31 := hwf.2.2.1
  have hlenr : readInt32BE u (read1 + 1) =
      ((4 + g.payload.length : Nat) : Int) := readInt32BE_frame hg hlen4
  have hdecomp : u.length = read1 + encSize g + rest2.length :=
    frame_length_decomp hg
  have hnrp : ¬(tagInt g.tag = msgRowData ∨ tagInt g.tag = msgNoData) := by
    intro hcon
    rw [← isRowish_iff] at hcon
    rw [hnr] at hcon
    exact Bool.false_ne_true hcon
  have hencw : encSize g = 5 + g.payload.length := rfl
  simp only [receiveLoop]
  rw [if_neg hentry, hfl]
  simp only [Nat.zero_add, hlenr]
  rw [if_neg (by push_cast; omega)]
  have hlt2 : (((4 + g.payload.length : Nat) : Int) - 4).toNat =
      g.payload.length := by
    omega
  have htot : (((4 + g.payload.length : Nat) : Int) - 4 + 5).toNat =
      encSize g := by
    rw [hencw]
    omega
  have hstep : stepSwitch st1 u (read1 + 5)
      ((((4 + g.payload.length : Nat) : Int) - 4).toNat) (tagInt g.tag) =
      stepFrame st1 g := by
    rw [hlt2]
    rw [stepSwitch_localized st1 hg hwf]
    rw [stepFrame]
    rw [if_neg hnrp]
  rw [hstep, htot]

/-- After the fast path breaks at an incomplete general-path frame whose
header is present, the outer loop records the frame's total size in
`expect` and returns. -/
theorem receiveLoop_after_brk_incomplete {u : List Nat} {st st1 : DState}
    {read read1 n : Nat} {acc o1 : List Out} {g : Frame} (fuel : Nat)
    (hentry : ¬u.length < st.expect + read)
    (hfl : fastLoop u 0 u.length (u.length + 1) st read acc =
      .brk st1 read1 (tagInt g.tag) o1)
    (hg : u.drop read1 = (encodeFrame g).take n) (h5 : 5 ≤ n)
    (hn : n = u.length - read1) (hr1 : read1 ≤ u.length)
    (hlt : n < encSize g) (hwf : WFFrame g) :
    receiveLoop u 0 u.length (fuel + 1) st read acc =
      .ok { st1 with expect := encSize g } read1 o1 := by
  have hlen4 : 4 + g.payload.length < 2 ^ 31 := hwf.2.2.1
  have hlenr : readInt32BE u (read1 + 1) =
      ((4 + g.payload.length : Nat) : Int) := partial_len hg h5 hlen4
  have hencw : encSize g = 5 + g.payload.length := rfl
  simp only [receiveLoop]
  rw [if_neg hentry, hfl]
  simp only [Nat.zero_add, hlenr]
  rw [if_pos (by push_cast; omega)]
  have htot : (((4 + g.payload.length : Nat) : Int) - 4 + 5).toNat =
      encSize g := by
    rw [hencw]
    omega
  rw [htot]

/-! ## The frame machine never touches `expect` -/

theorem fastActivate_expect {st s : DState} {b : Bool} {o : List Out}
    (h : fastActivate st b = .ok (s, o)) : s.expect = st.expect := by
  unfold fastActivate at h
  repeat' split at h
  all_goals try dsimp only at h
  all_goals first
    | exact Except.noConfusion h
    | (injection h with h
       injection h with h1 h2
       rw [← h1])

theorem stepSwitch_expect {st s : DState} {buf : List Nat}
    {start len : Nat} {m : Int} {o : List Out}
    (h : stepSwitch st buf start len m = .ok (s, o)) :
    s.expect = st.expect := by
  unfold stepSwitch at h
  by_cases hc0 : m = msgAuthenticate
  · rw [if_pos hc0] at h
    try dsimp only at h
    repeat' split at h
    all_goals try dsimp only at h
    all_goals first
      | exact Except.noConfusion h
      | (injection h with h
         injection h with he ho
         rw [← he])
  rw [if_neg hc0] at h
  by_cases hc1 : m = msgBackendKeyData
  · rw [if_pos hc1] at h
    try dsimp only at h
    repeat' split at h
    all_goals try dsimp only at h
    all_goals first
      | exact Except.noConfusion h
      | (injection h with h
         injection h with he ho
         rw [← he])
  rw [if_neg hc1] at h
  by_cases hc2 : m = msgBindComplete
  · rw [if_pos hc2] at h
    try dsimp only at h
    repeat' split at h
    all_goals try dsimp only at h
    all_goals first
      | exact Except.noConfusion h
      | (injection h with h
         injection h with he ho
         rw [← he])
  rw [if_neg hc2] at h
  by_cases hc3 : m = msgClose
  · rw [if_pos hc3] at h
    try dsimp only at h
    repeat' split at h
    all_goals try dsimp only at h
    all_goals first
      | exact Except.noConfusion h
      | (injection h with h
         injection h with he ho
         rw [← he])
  rw [if_neg hc3] at h
  by_cases hc4 : m = msgCloseComplete
  · rw [if_pos hc4] at h
    try dsimp only at h
    repeat' split at h
    all_goals try dsimp only at h
    all_goals first
      | exact Except.noConfusion h
      | (injection h with h
         injection h with he ho
         rw [← he])
  rw [if_neg hc4] at h
  by_cases hc5 : m = msgError
  · rw [if_pos hc5] at h
    try dsimp only at h
    repeat' split at h
    all_goals try dsimp only at h
    all_goals first
      | exact Except.noConfusion h
      | (injection h with h
         injection h with he ho
         rw [← he])
  rw [if_neg hc5] at h
  by_cases hc6 : m = msgNotice
  · rw [if_pos hc6] at h
    try dsimp only at h
    repeat' split at h
    all_goals try dsimp only at h
    all_goals first
      | exact Except.noConfusion h
      | (injection h with h
         injection h with he ho
         rw [← he])
  rw [if_neg hc6] at h
  by_cases hc7 : m = msgParseComplete
  · rw [if_pos hc7] at h
    try dsimp only at h
    repeat' split at h
    all_goals try dsimp only at h
    all_goals first
      | exact Except.noConfusion h
      | (injection h with h
         injection h with he ho
         rw [← he])
  rw [if_neg hc7] at h
  by_cases hc8 : m = msgParameterDescription
  · rw [if_pos hc8] at h
    try dsimp only at h
    repeat' split at h
    all_goals try dsimp only at h
    all_goals first
      | exact Except.noConfusion h
      | (injection h with h
         injection h with he ho
         rw [← he])
  rw [if_neg hc8] at h
  by_cases hc9 : m = msgParameterStatus
  · rw [if_pos hc9] at h
    try dsimp only at h
    repeat' split at h
    all_goals try dsimp only at h
    all_goals first
      | exact Except.noConfusion h
      | (injection h with h
         injection h with he ho
         rw [← he])
  rw [if_neg hc9] at h
  by_cases hc10 : m = msgReadyForQuery
  · rw [if_pos hc10] at h
    try dsimp only at h
    repeat' split at h
    all_goals try dsimp only at h
    all_goals first
      | exact Except.noConfusion h
      | (injection h with h
         injection h with he ho
         rw [← he])
  rw [if_neg hc10] at h
  by_cases hc11 : m = msgRowDescription
  · rw [if_pos hc11] at h
    try dsimp only at h
    repeat' split at h
    all_goals try dsimp only at h
    all_goals first
      | exact Except.noConfusion h
      | (injection h with h
         injection h with he ho
         rw [← he])
  rw [if_neg hc11] at h
  try dsimp only at h
  repeat' split at h
  all_goals try dsimp only at h
  all_goals first
    | exact Except.noConfusion h
    | (injection h with h
       injection h with he ho
       rw [← he])

theorem stepFrame_expect {st s : DState} {f : Frame} {o : List Out}
    (h : stepFrame st f = .ok (s, o)) : s.expect = st.expect := by
  unfold stepFrame at h
  dsimp only at h
  split at h
  · cases hact : fastActivate st
        (decide (tagInt f.tag = msgNoData)) with
    | error fl => rw [hact] at h; simp at h
    | ok pair =>
      obtain ⟨s1, o1⟩ := pair
      rw [hact] at h
      dsimp only at h
      have h1 : s1.expect = st.expect := fastActivate_expect hact
      cases hai : s1.activeInfo with
      | some hd =>
        obtain ⟨hh, dd⟩ := hd
        rw [hai] at h
        simp only [Except.ok.injEq, Prod.mk.injEq] at h
        rw [← h.1]
        exact h1
      | none =>
        rw [hai] at h
        simp only [Except.ok.injEq, Prod.mk.injEq] at h
        rw [← h.1]
        exact h1
  · exact stepSwitch_expect h

theorem processFrames_expect {fs : List Frame} :
    ∀ {st s : DState} {o : List Out},
    processFrames st fs = .ok (s, o) → s.expect = st.expect := by
  induction fs with
  | nil =>
    intro st s o h
    simp only [processFrames, Except.ok.injEq, Prod.mk.injEq] at h
    rw [← h.1]
  | cons f fs' ih =>
    intro st s o h
    simp only [processFrames] at h
    cases hsf : stepFrame st f with
    | error pair => rw [hsf] at h; simp at h
    | ok pair =>
      obtain ⟨s1, o1⟩ := pair
      rw [hsf] at h
      dsimp only at h
      cases hpf : processFrames s1 fs' with
      | error pair2 => rw [hpf] at h; obtain ⟨fl2, o2⟩ := pair2; simp at h
      | ok pair2 =>
        obtain ⟨s2, o2⟩ := pair2
        rw [hpf] at h
        simp only [Except.ok.injEq, Prod.mk.injEq] at h
        rw [← h.1]
        exact (ih hpf).trans (stepFrame_expect hsf)

/-! ## The run characterization of the outer loop -/

/-- The outer loop of `receive`, entered with `expect = 5` at a position
whose suffix is a sequence of complete well-formed frames followed by a
well-formed tail: it performs exactly the frame-machine steps on those
frames and then finishes as `tailResult` describes. -/
theorem receiveLoop_run {u : List Nat} :
    ∀ (N : Nat) (fs : List Frame) (tc : TailCase) (t : List Nat)
      (st : DState) (read : Nat) (acc : List Out) (fuelm : Nat),
    fs.length ≤ N →
    (∀ f ∈ fs, WFFrame f) →
    u.drop read = encodeFrames fs ++ t →
    TailOk t tc →
    st.expect = 5 →
    fs.length < fuelm →
    read ≤ u.length →
    receiveLoop u 0 u.length fuelm st read acc =
      (match processFrames st fs with
      | .error (fl, o) => ReceiveResult.fault fl (acc ++ o)
      | .ok (st1, o) => tailResult st1 (read + encLen fs) (acc ++ o) tc) := by
  intro N
  induction N with
  | zero =>
    intro fs tc t st read acc fuelm hN hwf hu htail hexp hfuel hr
    cases fs with
    | cons a l => simp at hN
    | nil =>
      obtain ⟨fm, rfl⟩ : ∃ fm, fuelm = fm + 1 := ⟨fuelm - 1, by omega⟩
      simp only [encodeFrames, List.nil_append] at hu
      have hlen : u.length = read + t.length := drop_length_of_eq hu hr
      cases tc with
      | short =>
        simp only [TailOk] at htail
        have hE : u.length < st.expect + read := by rw [hexp]; omega
        rw [receiveLoop_entry_exit st read acc fm hE]
        simp only [processFrames, tailResult, encLen_nil, Nat.add_zero,
          List.append_nil]
        rw [set_expect_eq hexp]
      | general g =>
        simp only [TailOk] at htail
        obtain ⟨hpre, h5, hlt, hwg, hnrg⟩ := htail
        have hp : u.drop read = (encodeFrame g).take t.length := by
          rw [hu]
          exact hpre
        have hentry : ¬u.length < st.expect + read := by rw [hexp]; omega
        have htag : readInt8 u read = tagInt g.tag := partial_tag hp h5
        have hm : ¬(tagInt g.tag = msgRowData ∨ tagInt g.tag = msgNoData) := by
          intro hcon
          rw [← isRowish_iff, hnrg] at hcon
          exact Bool.false_ne_true hcon
        have hfl : fastLoop u 0 u.length (u.length + 1) st read acc =
            .brk st read (tagInt g.tag) acc :=
          fastLoop_brk st read acc u.length htag hm
        rw [receiveLoop_after_brk_incomplete fm hentry hfl hp h5 (by omega)
          hr hlt hwg]
        simp [processFrames, tailResult, encLen_nil]
      | rowPart g =>
        simp only [TailOk] at htail
        obtain ⟨hpre, h5, hlt, hwg, hrowg⟩ := htail
        have hp : u.drop read = (encodeFrame g).take t.length := by
          rw [hu]
          exact hpre
        have hentry : ¬u.length < st.expect + read := by rw [hexp]; omega
        have hfl := fastLoop_partial_row st acc u.length hp h5 (by omega)
          hr hlt hrowg hwg
        cases hact : fastActivate st false with
        | error fl =>
          rw [hact] at hfl
          dsimp only at hfl
          rw [receiveLoop_of_fault fm hentry hfl]
          simp [processFrames, tailResult, hact]
        | ok pair =>
          obtain ⟨st2, o2⟩ := pair
          rw [hact] at hfl
          dsimp only at hfl
          rw [receiveLoop_of_ret fm hentry hfl]
          simp [processFrames, tailResult, hact, encLen_nil]
  | succ N ih =>
    intro fs tc t st read acc fuelm hN hwf hu htail hexp hfuel hr
    cases fs with
    | nil =>
      exact ih [] tc t st read acc fuelm (by simp) hwf hu htail hexp hfuel hr
    | cons f fs' =>
      obtain ⟨fm, rfl⟩ : ∃ fm, fuelm = fm + 1 := ⟨fuelm - 1, by omega⟩
      by_cases hrowf : isRowish f = true
      · -- a run of consecutive row-data / no-data frames at the cursor
        obtain ⟨rs, hrs⟩ : ∃ rs, (f :: fs').takeWhile isRowish = rs := ⟨_, rfl⟩
        obtain ⟨fsr, hfsr⟩ : ∃ fsr, (f :: fs').dropWhile isRowish = fsr :=
          ⟨_, rfl⟩
        have hsplit : rs ++ fsr = f :: fs' := by
          rw [← hrs, ← hfsr]
          exact List.takeWhile_append_dropWhile _ _
        have hallrow : ∀ g ∈ rs, isRowish g = true := by
          intro g hg
          rw [← hrs] at hg
          exact List.mem_takeWhile_imp hg
        have hboth : ∀ g ∈ rs, isRowish g = true ∧ WFFrame g := by
          intro g hg
          exact ⟨hallrow g hg, hwf g (hsplit ▸ List.mem_append_left fsr hg)⟩
        have hrscons : rs = f :: fs'.takeWhile isRowish := by
          rw [← hrs, List.takeWhile_cons_of_pos hrowf]
        have hrspos : 0 < rs.length := by rw [hrscons]; simp
        have hlensplit : rs.length + fsr.length = fs'.length + 1 := by
          have := congrArg List.length hsplit
          simpa using this
        have hu2 : u.drop read =
            encodeFrames rs ++ (encodeFrames fsr ++ t) := by
          rw [hu, ← hsplit, encodeFrames_append, List.append_assoc]
        have hulen : u.length = read + encLen rs + encLen fsr + t.length := by
          have h1 := drop_length_of_eq hu2 hr
          simp only [List.length_append] at h1
          simp only [encLen]
          omega
        have hrs5 : 5 ≤ encLen rs := by
          rw [hrscons]
          exact encLen_cons_ge _ _
        have hrslen : rs.length ≤ u.length := by
          have h1 := encodeFrames_length_ge rs
          have h2 : (encodeFrames rs).length = encLen rs := rfl
          omega
        have hentry : ¬u.length < st.expect + read := by rw [hexp]; omega
        have hfq : u.length - rs.length + rs.length + 1 = u.length + 1 := by
          omega
        have hflrun := fastLoop_run rs (encodeFrames fsr ++ t) st read acc
          (u.length - rs.length) hboth hu2
        rw [hfq] at hflrun
        rw [← hsplit, processFrames_append]
        cases hpr : processFrames st rs with
        | error pair =>
          obtain ⟨fl, o⟩ := pair
          rw [hpr] at hflrun
          dsimp only at hflrun
          rw [receiveLoop_of_fault fm hentry hflrun]
        | ok pair =>
          obtain ⟨st1, o⟩ := pair
          rw [hpr] at hflrun
          dsimp only at hflrun
          have hst1exp : st1.expect = 5 :=
            (processFrames_expect hpr).trans hexp
          by_cases hfit : u.length < read + encLen rs + 5
          · rw [if_pos ⟨hrspos, hfit⟩] at hflrun
            have hfsrnil : fsr = [] := by
              cases hc : fsr with
              | nil => rfl
              | cons g gs =>
                exfalso
                rw [hc] at hulen
                have := encLen_cons_ge g gs
                omega
            subst hfsrnil
            cases tc with
            | short =>
              rw [receiveLoop_of_ret fm hentry hflrun]
              simp [processFrames, tailResult]
            | general g =>
              simp only [TailOk] at htail
              obtain ⟨-, h5, -, -, -⟩ := htail
              exfalso
              simp only [encLen_nil] at hulen
              omega
            | rowPart g =>
              simp only [TailOk] at htail
              obtain ⟨-, h5, -, -, -⟩ := htail
              exfalso
              simp only [encLen_nil] at hulen
              omega
          · have hnc : ¬(0 < rs.length ∧
                u.length < read + encLen rs + 5) := fun hc => hfit hc.2
            rw [if_neg hnc] at hflrun
            have hdrop2 : u.drop (read + encLen rs) =
                encodeFrames fsr ++ t := drop_after_frames hu2
            cases fsr with
            | nil =>
              simp only [encodeFrames, List.nil_append] at hdrop2
              simp only [encLen_nil] at hulen
              cases tc with
              | short =>
                simp only [TailOk] at htail
                exact absurd htail (by omega)
              | general g =>
                simp only [TailOk] at htail
                obtain ⟨hpre, h5, hlt, hwg, hnrg⟩ := htail
                have hp2 : u.drop (read + encLen rs) =
                    (encodeFrame g).take t.length := by
                  rw [hdrop2]
                  exact hpre
                have htag2 : readInt8 u (read + encLen rs) = tagInt g.tag :=
                  partial_tag hp2 h5
                have hm2 : ¬(tagInt g.tag = msgRowData ∨
                    tagInt g.tag = msgNoData) := by
                  intro hcon
                  rw [← isRowish_iff, hnrg] at hcon
                  exact Bool.false_ne_true hcon
                have hflfull := hflrun.trans
                  (fastLoop_brk st1 (read + encLen rs) (acc ++ o)
                    (u.length - rs.length) htag2 hm2)
                rw [receiveLoop_after_brk_incomplete fm hentry hflfull hp2 h5
                  (by omega) (by omega) hlt hwg]
                simp [processFrames, tailResult]
              | rowPart g =>
                simp only [TailOk] at htail
                obtain ⟨hpre, h5, hlt, hwg, hrowg⟩ := htail
                have hp2 : u.drop (read + encLen rs) =
                    (encodeFrame g).take t.length := by
                  rw [hdrop2]
                  exact hpre
                have hpart := fastLoop_partial_row st1 (acc ++ o)
                  (u.length - rs.length) hp2 h5 (by omega) (by omega)
                  hlt hrowg hwg
                have hflfull := hflrun.trans hpart
                cases hact : fastActivate st1 false with
                | error fl =>
                  rw [hact] at hflfull
                  dsimp only at hflfull
                  rw [receiveLoop_of_fault fm hentry hflfull]
                  simp [processFrames, tailResult, hact]
                | ok pair2 =>
                  obtain ⟨st2, o2⟩ := pair2
                  rw [hact] at hflfull
                  dsimp only at hflfull
                  rw [receiveLoop_of_ret fm hentry hflfull]
                  simp [processFrames, tailResult, hact]
            | cons g fsr' =>
              have hgnr : isRowish g = false := dropWhile_head_not hfsr
              have hwfg : WFFrame g :=
                hwf g (hsplit ▸ List.mem_append_right rs (by simp))
              have hdrop2a : u.drop (read + encLen rs) =
                  encodeFrame g ++ (encodeFrames fsr' ++ t) := by
                rw [hdrop2]
                simp [encodeFrames, List.append_assoc]
              have htag2 : readInt8 u (read + encLen rs) = tagInt g.tag :=
                readInt8_frame hdrop2a
              have hm2 : ¬(tagInt g.tag = msgRowData ∨
                  tagInt g.tag = msgNoData) := by
                intro hcon
                rw [← isRowish_iff, hgnr] at hcon
                exact Bool.false_ne_true hcon
              have hflfull := hflrun.trans
                (fastLoop_brk st1 (read + encLen rs) (acc ++ o)
                  (u.length - rs.length) htag2 hm2)
              rw [receiveLoop_after_brk fm hentry hflfull hdrop2a hwfg hgnr]
              have hdecg := frame_length_decomp hdrop2a
              cases hsg : stepFrame st1 g with
              | error pair2 =>
                obtain ⟨fl, o2⟩ := pair2
                dsimp only
                simp [processFrames, hsg, List.append_assoc]
              | ok pair2 =>
                obtain ⟨st2, o2⟩ := pair2
                dsimp only
                have hex2 : st2.expect = 5 :=
                  (stepFrame_expect hsg).trans hst1exp
                rw [set_expect_eq hex2]
                have hdrop3 : u.drop (read + encLen rs + encSize g) =
                    encodeFrames fsr' ++ t := drop_after_frame hdrop2a
                rw [ih fsr' tc t st2 (read + encLen rs + encSize g)
                  ((acc ++ o) ++ o2) fm
                  (by
                    simp only [List.length_cons] at hN hlensplit
                    omega)
                  (fun q hq => hwf q (hsplit ▸ List.mem_append_right rs
                    (by simp [hq])))
                  hdrop3 htail hex2
                  (by
                    simp only [List.length_cons] at hfuel hlensplit
                    omega)
                  (by omega)]
                cases hp3 : processFrames st2 fsr' with
                | error pair3 =>
                  obtain ⟨fl2, o3⟩ := pair3
                  simp [processFrames, hsg, hp3, List.append_assoc]
                | ok pair3 =>
                  obtain ⟨st3, o3⟩ := pair3
                  simp only [processFrames, hsg, hp3]
                  rw [show read + encLen rs + encSize g + encLen fsr' =
                      read + encLen (rs ++ g :: fsr') from by
                    rw [encLen_append, encLen_cons]
                    omega]
                  simp [List.append_assoc]
      · -- a complete general-path frame at the cursor
        have hnr : isRowish f = false := Bool.of_not_eq_true hrowf
        have hwff : WFFrame f := hwf f (by simp)
        have hu1 : u.drop read = encodeFrame f ++ (encodeFrames fs' ++ t) := by
          rw [hu]
          simp [encodeFrames, List.append_assoc]
        have hexple : st.expect ≤ encSize f := by
          rw [hexp]
          exact encSize_ge f
        have hdec := frame_length_decomp hu1
        have hrst : u.drop (read + encSize f) = encodeFrames fs' ++ t :=
          drop_after_frame hu1
        rw [receiveLoop_general_step st acc fm hu1 hnr hwff hexple]
        simp only [processFrames]
        cases hsf : stepFrame st f with
        | error pair =>
          obtain ⟨fl, o2⟩ := pair
          dsimp only
        | ok pair =>
          obtain ⟨st2, o2⟩ := pair
          dsimp only
          have hex2 : st2.expect = 5 := (stepFrame_expect hsf).trans hexp
          rw [set_expect_eq hex2]
          rw [ih fs' tc t st2 (read + encSize f) (acc ++ o2) fm
            (by simp only [List.length_cons] at hN; omega)
            (fun q hq => hwf q (by simp [hq]))
            hrst htail hex2
            (by simp only [List.length_cons] at hfuel; omega)
            (by omega)]
          cases hpf : processFrames st2 fs' with
          | error pair2 =>
            obtain ⟨fl2, o3⟩ := pair2
            dsimp only
            rw [List.append_assoc]
          | ok pair2 =>
            obtain ⟨st3, o3⟩ := pair2
            dsimp only
            rw [show read + encSize f + encLen fs' = read + encLen (f :: fs')
              from by rw [encLen_cons]; omega, List.append_assoc]


/-! ## Setting `expect` commutes with the dispatch machinery -/

/-- Overriding `expect` before an activation only overrides `expect` in
the resulting state. -/
theorem fastActivate_set_expect (st : DState) (b : Bool) (e : Nat) :
    fastActivate { st with expect := e } b =
      (match fastActivate st b with
      | .error f => .error f
      | .ok (s, o) => .ok ({ s with expect := e }, o)) := by
  unfold fastActivate
  cases hai : st.activeInfo with
  | some hd => simp [hai]
  | none =>
    cases hdh : st.dataHandlers with
    | nil => simp [hai, hdh]
    | cons h hs =>
      cases b with
      | true => simp [hai, hdh]
      | false =>
        cases hrd : st.rowDescriptions with
        | nil => simp [hai, hdh, hrd]
        | cons dsc ds => simp [hai, hdh, hrd]

/-- Overriding `expect` before the dispatch switch only overrides
`expect` in the resulting state: the switch never reads it. -/
theorem stepSwitch_set_expect (st : DState) (buf : List Nat)
    (start len : Nat) (m : Int) (e : Nat) :
    stepSwitch { st with expect := e } buf start len m =
      (match stepSwitch st buf start len m with
      | .error x => .error x
      | .ok (s, o) => .ok ({ s with expect := e }, o)) := by
  unfold stepSwitch
  by_cases hc0 : m = msgAuthenticate
  · rw [if_pos hc0, if_pos hc0]
    try dsimp only
    repeat' split
    all_goals first
      | rfl
      | (rename_i heq
         first
           | exact Except.noConfusion heq
           | (injection heq with h12
              first
                | (subst h12
                   rfl)
                | (injection h12 with ha hb
                   subst ha
                   subst hb
                   rfl)))
  rw [if_neg hc0, if_neg hc0]
  by_cases hc1 : m = msgBackendKeyData
  · rw [if_pos hc1, if_pos hc1]
    try dsimp only
    repeat' split
    all_goals first
      | rfl
      | (rename_i heq
         first
           | exact Except.noConfusion heq
           | (injection heq with h12
              first
                | (subst h12
                   rfl)
                | (injection h12 with ha hb
                   subst ha
                   subst hb
                   rfl)))
  rw [if_neg hc1, if_neg hc1]
  by_cases hc2 : m = msgBindComplete
  · rw [if_pos hc2, if_pos hc2]
    try dsimp only
    repeat' split
    all_goals first
      | rfl
      | (rename_i heq
         first
           | exact Except.noConfusion heq
           | (injection heq with h12
              first
                | (subst h12
                   rfl)
                | (injection h12 with ha hb
                   subst ha
                   subst hb
                   rfl)))
  rw [if_neg hc2, if_neg hc2]
  by_cases hc3 : m = msgClose
  · rw [if_pos hc3, if_pos hc3]
    try dsimp only
    repeat' split
    all_goals first
      | rfl
      | (rename_i heq
         first
           | exact Except.noConfusion heq
           | (injection heq with h12
              first
                | (subst h12
                   rfl)
                | (injection h12 with ha hb
                   subst ha
                   subst hb
                   rfl)))
  rw [if_neg hc3, if_neg hc3]
  by_cases hc4 : m = msgCloseComplete
  · rw [if_pos hc4, if_pos hc4]
    try dsimp only
    repeat' split
    all_goals first
      | rfl
      | (rename_i heq
         first
           | exact Except.noConfusion heq
           | (injection heq with h12
              first
                | (subst h12
                   rfl)
                | (injection h12 with ha hb
                   subst ha
                   subst hb
                   rfl)))
  rw [if_neg hc4, if_neg hc4]
  by_cases hc5 : m = msgError
  · rw [if_pos hc5, if_pos hc5]
    try dsimp only
    repeat' split
    all_goals first
      | rfl
      | (rename_i heq
         first
           | exact Except.noConfusion heq
           | (injection heq with h12
              first
                | (subst h12
                   rfl)
                | (injection h12 with ha hb
                   subst ha
                   subst hb
                   rfl)))
  rw [if_neg hc5, if_neg hc5]
  by_cases hc6 : m = msgNotice
  · rw [if_pos hc6, if_pos hc6]
    try dsimp only
    repeat' split
    all_goals first
      | rfl
      | (rename_i heq
         first
           | exact Except.noConfusion heq
           | (injection heq with h12
              first
                | (subst h12
                   rfl)
                | (injection h12 with ha hb
                   subst ha
                   subst hb
                   rfl)))
  rw [if_neg hc6, if_neg hc6]
  by_cases hc7 : m = msgParseComplete
  · rw [if_pos hc7, if_pos hc7]
    try dsimp only
    repeat' split
    all_goals first
      | rfl
      | (rename_i heq
         first
           | exact Except.noConfusion heq
           | (injection heq with h12
              first
                | (subst h12
                   rfl)
                | (injection h12 with ha hb
                   subst ha
                   subst hb
                   rfl)))
  rw [if_neg hc7, if_neg hc7]
  by_cases hc8 : m = msgParameterDescription
  · rw [if_pos hc8, if_pos hc8]
    try dsimp only
    repeat' split
    all_goals first
      | rfl
      | (rename_i heq
         first
           | exact Except.noConfusion heq
           | (injection heq with h12
              first
                | (subst h12
                   rfl)
                | (injection h12 with ha hb
                   subst ha
                   subst hb
                   rfl)))
  rw [if_neg hc8, if_neg hc8]
  by_cases hc9 : m = msgParameterStatus
  · rw [if_pos hc9, if_pos hc9]
    try dsimp only
    repeat' split
    all_goals first
      | rfl
      | (rename_i heq
         first
           | exact Except.noConfusion heq
           | (injection heq with h12
              first
                | (subst h12
                   rfl)
                | (injection h12 with ha hb
                   subst ha
                   subst hb
                   rfl)))
  rw [if_neg hc9, if_neg hc9]
  by_cases hc10 : m = msgReadyForQuery
  · rw [if_pos hc10, if_pos hc10]
    try dsimp only
    repeat' split
    all_goals first
      | rfl
      | (rename_i heq
         first
           | exact Except.noConfusion heq
           | (injection heq with h12
              first
                | (subst h12
                   rfl)
                | (injection h12 with ha hb
                   subst ha
                   subst hb
                   rfl)))
  rw [if_neg hc10, if_neg hc10]
  by_cases hc11 : m = msgRowDescription
  · rw [if_pos hc11, if_pos hc11]
    try dsimp only
    repeat' split
    all_goals first
      | rfl
      | (rename_i heq
         first
           | exact Except.noConfusion heq
           | (injection heq with h12
              first
                | (subst h12
                   rfl)
                | (injection h12 with ha hb
                   subst ha
                   subst hb
                   rfl)))
  rw [if_neg hc11, if_neg hc11]
  try dsimp only
  repeat' split
  all_goals first
    | rfl
    | (rename_i heq
       first
         | exact Except.noConfusion heq
         | (injection heq with h12
            first
              | (subst h12
                 rfl)
              | (injection h12 with ha hb
                 subst ha
                 subst hb
                 rfl)))

/-- Overriding `expect` before the fast path: the loop never reads it,
re-setting it on every early return, so only a `break` state carries the
override through. -/
theorem fastLoop_set_expect (buffer : List Nat) (offset size : Nat) :
    ∀ (fuel : Nat) (st : DState) (read : Nat) (acc : List Out) (e : Nat),
    fastLoop buffer offset size fuel { st with expect := e } read acc =
      (match fastLoop buffer offset size fuel st read acc with
      | .ret s r o => .ret s r o
      | .fault f o => .fault f o
      | .brk s r mt o => .brk { s with expect := e } r mt o) := by
  intro fuel
  induction fuel with
  | zero =>
    intro st read acc e
    rfl
  | succ fuel ih =>
    intro st read acc e
    simp only [fastLoop]
    by_cases hrow : readInt8 buffer (offset + read) = msgRowData ∨
        readInt8 buffer (offset + read) = msgNoData
    · rw [if_pos hrow, if_pos hrow]
      rw [fastActivate_set_expect]
      cases hact : fastActivate st
          (decide (readInt8 buffer (offset + read) = msgNoData)) with
      | error f =>
        dsimp only
      | ok pair =>
        obtain ⟨s1, o1⟩ := pair
        dsimp only
        cases hai : s1.activeInfo with
        | some hd =>
          obtain ⟨h, d⟩ := hd
          dsimp only
          split
          · rfl
          · split
            · rfl
            · rw [← hai, ih]
        | none =>
          dsimp only
          split
          · rfl
          · rw [← hai, ih]
    · rw [if_neg hrow, if_neg hrow]

/-- Overriding `expect` at entry to the outer loop is invisible as long as
the entry check passes either way: the first dispatched frame resets it. -/
theorem receiveLoop_set_expect {u : List Nat} (fuel : Nat) (st : DState)
    (read : Nat) (acc : List Out) (e : Nat)
    (h1 : ¬u.length < e + read) (h2 : ¬u.length < st.expect + read) :
    receiveLoop u 0 u.length (fuel + 1) { st with expect := e } read acc =
      receiveLoop u 0 u.length (fuel + 1) st read acc := by
  simp only [receiveLoop]
  try dsimp only
  rw [if_neg h1, if_neg h2]
  rw [fastLoop_set_expect]
  cases hfl : fastLoop u 0 u.length (u.length + 1) st read acc with
  | ret s r o => dsimp only
  | fault f o => dsimp only
  | brk s r mt o =>
    dsimp only
    split
    · rfl
    · rw [stepSwitch_set_expect]
      cases hss : stepSwitch s u (0 + r + 5)
          (readInt32BE u (0 + r + 1) - 4).toNat mt with
      | error x => dsimp only
      | ok pair =>
        obtain ⟨s2, o2⟩ := pair
        dsimp only

/-! ## Reassembly invariants and chunk decomposition -/

/-- Under the exact-fit invariant (buffer length equals offset plus
unread), the free space after the unread region is zero, so a nonempty
chunk always triggers the reallocation path, and the region handed to
`receive` is exactly the unread bytes followed by the chunk, at offset
zero. -/
theorem mergeChunk_run (cs : ClientState) (p c : List Nat)
    (hrem : cs.remaining = p.length)
    (hnone : cs.buffer = none → p = [])
    (hsome : ∀ b, cs.buffer = some b →
      b.length = cs.offset + cs.remaining ∧ b.drop cs.offset = p)
    (hc : c ≠ []) :
    mergeChunk cs c = (p ++ c, 0) := by
  cases hbs : cs.buffer with
  | none =>
    rw [hnone hbs]
    simp [mergeChunk, hbs]
  | some b =>
    obtain ⟨hlen, hdrop⟩ := hsome b hbs
    by_cases hR : cs.remaining = 0
    · have hp : p = [] := by
        have h0 : p.length = 0 := by omega
        cases p with
        | nil => rfl
        | cons x xs => simp at h0
      subst hp
      simp [mergeChunk, hbs, hR]
    · have hclen : 0 < c.length := List.length_pos.mpr hc
      have hfree : (b.length : Int) - cs.offset - cs.remaining <
          c.length := by
        have : b.length = cs.offset + cs.remaining := hlen
        push_cast
        omega
      have hmc : mergeChunk cs c =
          (bufCopy c
            (bufCopy b (List.replicate (c.length + cs.remaining) 0)
              0 cs.offset (cs.offset + cs.remaining))
            cs.remaining 0 c.length, 0) := by
        simp [mergeChunk, hbs, hR, hfree]
      have hptake : (b.drop cs.offset).take cs.remaining = p := by
        rw [hdrop, hrem, List.take_length]
      have hnew : bufCopy b (List.replicate (c.length + cs.remaining) 0)
          0 cs.offset (cs.offset + cs.remaining) =
          p ++ List.replicate c.length 0 := by
        simp only [bufCopy]
        have h1 : min (cs.offset + cs.remaining - cs.offset)
            (b.length - cs.offset) = cs.remaining := by omega
        rw [h1]
        have h2 : min cs.remaining
            ((List.replicate (c.length + cs.remaining) 0).length - 0) =
            cs.remaining := by
          simp [List.length_replicate]
        rw [h2, hptake]
        simp [List.drop_replicate]
      have hplen : p.length = cs.remaining := hrem.symm
      have hfinal : bufCopy c (p ++ List.replicate c.length 0)
          cs.remaining 0 c.length = p ++ c := by
        simp only [bufCopy]
        have h1 : min (c.length - 0) (c.length - 0) = c.length := by omega
        rw [h1]
        have h2 : min c.length
            ((p ++ List.replicate c.length 0).length - cs.remaining) =
            c.length := by
          simp [hplen]
        rw [h2, List.take_left' hplen]
        simp only [List.drop_zero, List.take_length]
        have h3 : (p ++ List.replicate c.length 0).length =
            cs.remaining + c.length := by
          simp [hplen]
        rw [List.drop_eq_nil_of_le (le_of_eq h3)]
        simp
      rw [hmc, hnew, hfinal]

/-- Any left part of a byte stream that encodes a frame sequence
decomposes as some complete frames followed by a (possibly empty) proper
prefix of the next frame's encoding. -/
theorem frames_prefix_decomp :
    ∀ (gs : List Frame) (u w : List Nat),
    u ++ w = encodeFrames gs →
    ∃ fs1 gs2 t, gs = fs1 ++ gs2 ∧ u = encodeFrames fs1 ++ t ∧
      (t = [] ∨ ∃ g gs3, gs2 = g :: gs3 ∧
        t = (encodeFrame g).take t.length ∧ t.length < encSize g) := by
  intro gs
  induction gs with
  | nil =>
    intro u w h
    have hu : u = [] := by
      have hl := congrArg List.length h
      simp [encodeFrames] at hl
      cases u with
      | nil => rfl
      | cons x xs => simp at hl
    refine ⟨[], [], [], by simp, by simp [hu, encodeFrames], Or.inl rfl⟩
  | cons g gs' ih =>
    intro u w h
    simp only [encodeFrames] at h
    have hEg : (encodeFrame g).length = encSize g := encodeFrame_length g
    by_cases hlen : u.length < encSize g
    · have hpre : u = (encodeFrame g).take u.length := by
        have h1 : (u ++ w).take u.length = u := by
          rw [List.take_append_eq_append_take, Nat.sub_self, List.take_zero,
            List.append_nil, List.take_length]
        have h2 : (encodeFrame g ++ encodeFrames gs').take u.length =
            (encodeFrame g).take u.length := by
          rw [List.take_append_eq_append_take]
          have h0 : u.length - (encodeFrame g).length = 0 := by omega
          rw [h0, List.take_zero, List.append_nil]
        conv_lhs => rw [← h1, h, h2]
      refine ⟨[], g :: gs', u, by simp, by simp [encodeFrames], ?_⟩
      by_cases hu0 : u = []
      · exact Or.inl hu0
      · exact Or.inr ⟨g, gs', rfl, hpre, hlen⟩
    · push_neg at hlen
      have htake : u.take (encSize g) = encodeFrame g := by
        have h1 : (u ++ w).take (encSize g) = u.take (encSize g) := by
          rw [List.take_append_eq_append_take]
          have h0 : encSize g - u.length = 0 := by omega
          rw [h0, List.take_zero, List.append_nil]
        have h2 : (encodeFrame g ++ encodeFrames gs').take (encSize g) =
            encodeFrame g := by
          rw [← hEg, List.take_left]
        rw [← h1, h, h2]
      have hsplitu : u = encodeFrame g ++ u.drop (encSize g) := by
        conv_lhs => rw [← List.take_append_drop (encSize g) u]
        rw [htake]
      have hdropw : u.drop (encSize g) ++ w = encodeFrames gs' := by
        have hd := congrArg (List.drop (encSize g)) h
        rw [List.drop_append_eq_append_drop] at hd
        have h0 : encSize g - u.length = 0 := by omega
        rw [h0, List.drop_zero] at hd
        rw [hd, ← hEg, List.drop_left]
      obtain ⟨fs1, gs2, t, hgs, hu2, htc⟩ := ih (u.drop (encSize g)) w hdropw
      refine ⟨g :: fs1, gs2, t, by simp [hgs], ?_, htc⟩
      rw [hsplitu, hu2]
      simp [encodeFrames, List.append_assoc]

/-- A partial rowish frame with its header present is a row-data frame:
well-formed "no data" frames are exactly five bytes. -/
theorem rowish_tail_is_rowdata {g : Frame} (hwf : WFFrame g)
    (hrow : isRowish g = true) {n : Nat} (h5 : 5 ≤ n)
    (hlt : n < encSize g) : tagInt g.tag = msgRowData := by
  rcases (isRowish_iff g).mp hrow with h | h
  · exact h
  · exfalso
    have hpl : g.payload = [] := hwf.2.2.2.1 h
    have : encSize g = 5 := by simp [encSize, hpl]
    omega

/-- Once a row consumer has been activated for a row-data frame, stepping
that frame from the activated state is the same as stepping it from the
state before activation. -/
theorem stepFrame_after_activate {dm a : DState} {g : Frame}
    (hact : fastActivate dm false = .ok (a, []))
    (hrow : tagInt g.tag = msgRowData) :
    stepFrame a g = stepFrame dm g := by
  have hdec : (decide (tagInt g.tag = msgNoData)) = false := by
    rw [hrow]
    decide
  obtain ⟨⟨hd, hai⟩, -⟩ := fastActivate_row_ok hact
  have hacta : fastActivate a false = .ok (a, []) := by
    unfold fastActivate
    rw [hai]
  unfold stepFrame
  rw [if_pos (Or.inl hrow), if_pos (Or.inl hrow), hdec, hact, hacta]

/-- If stepping a rowish frame succeeds, the underlying activation
succeeded. -/
theorem stepFrame_rowish_ok {dm s : DState} {g : Frame} {o : List Out}
    (hrow : tagInt g.tag = msgRowData)
    (h : stepFrame dm g = .ok (s, o)) :
    ∃ a, fastActivate dm false = .ok (a, []) := by
  have hdec : (decide (tagInt g.tag = msgNoData)) = false := by
    rw [hrow]
    decide
  unfold stepFrame at h
  rw [if_pos (Or.inl hrow), hdec] at h
  cases hact : fastActivate dm false with
  | error f =>
    rw [hact] at h
    simp at h
  | ok pair =>
    obtain ⟨a, oa⟩ := pair
    obtain ⟨-, rfl⟩ := fastActivate_row_ok hact
    exact ⟨a, rfl⟩

/-- A `receive` call entered with `expect = 5` on a region of complete
frames plus tail behaves as the frame machine followed by the tail
handling. -/
theorem receive_run {u t : List Nat} {fs1 : List Frame} {st : DState}
    (tc : TailCase)
    (hwf : ∀ f ∈ fs1, WFFrame f)
    (hu : u = encodeFrames fs1 ++ t)
    (htail : TailOk t tc)
    (hexp : st.expect = 5) :
    receiveLoop u 0 u.length (u.length + 1) st 0 [] =
      (match processFrames st fs1 with
      | .error (fl, o) => ReceiveResult.fault fl o
      | .ok (st1, o) => tailResult st1 (encLen fs1) o tc) := by
  have h2 := congrArg List.length hu
  simp only [List.length_append] at h2
  have hfuel : fs1.length < u.length + 1 := by
    have h1 := encodeFrames_length_ge fs1
    omega
  have hrun := receiveLoop_run fs1.length fs1 tc t st 0 [] (u.length + 1)
    le_rfl hwf (by simpa using hu) htail hexp hfuel (Nat.zero_le _)
  rw [hrun]
  cases hp : processFrames st fs1 with
  | error pair =>
    obtain ⟨fl, oo⟩ := pair
    simp
  | ok pair =>
    obtain ⟨st1, oo⟩ := pair
    simp


/-- The shared continuation of the per-chunk step: once the `receive`
call on the merged region has been characterized as the frame machine on
the region's complete frames plus tail handling, the data handler's
bookkeeping re-establishes the cross-chunk invariant and the remaining
chunks compose. -/
theorem feed_step_core (rest : List (List Nat)) (c : List Nat)
    (ih : ∀ (gs : List Frame) (dm : DState) (cs : ClientState)
      (p : List Nat) (sfin : DState) (o : List Out),
      (∀ f ∈ gs, WFFrame f) → (∀ x ∈ rest, x ≠ []) →
      p ++ rest.join = encodeFrames gs →
      cs.remaining = p.length →
      (cs.buffer = none → p = []) →
      (∀ b, cs.buffer = some b →
        b.length = cs.offset + cs.remaining ∧ b.drop cs.offset = p) →
      DispInv dm gs p cs.dst →
      dm.expect = 5 →
      processFrames dm gs = .ok (sfin, o) →
      ∃ cs2, feedChunks cs rest = .ok cs2 o)
    (gs fs1 gs2 : List Frame) (dm : DState) (cs : ClientState)
    (p t : List Nat) (sfin : DState) (o : List Out) (tc : TailCase)
    (hwf : ∀ f ∈ gs, WFFrame f) (hne : ∀ x ∈ rest, x ≠ [])
    (hjoin2 : (p ++ c) ++ rest.join = encodeFrames gs)
    (hgs : gs = fs1 ++ gs2)
    (hu : p ++ c = encodeFrames fs1 ++ t)
    (htail : TailOk t tc)
    (hnext : TailNext gs2 tc)
    (hexp : dm.expect = 5)
    (hok : processFrames dm gs = .ok (sfin, o))
    (hmerge : mergeChunk cs c = (p ++ c, 0))
    (hrem : cs.remaining = p.length)
    (hrecv : receive cs.dst (p ++ c) 0 (p ++ c).length =
      (match processFrames dm fs1 with
      | .error (fl, oo) => ReceiveResult.fault fl oo
      | .ok (st1, oo) => tailResult st1 (encLen fs1) oo tc)) :
    ∃ cs2, feedChunks cs (c :: rest) = .ok cs2 o := by
  have hsize : c.length + cs.remaining = (p ++ c).length := by
    rw [hrem, List.length_append]
    omega
  have hencl : encLen fs1 = (encodeFrames fs1).length := rfl
  rw [hgs, processFrames_append] at hok
  cases hp1 : processFrames dm fs1 with
  | error pair =>
    obtain ⟨fl, oo⟩ := pair
    rw [hp1] at hok
    exact absurd hok (by simp)
  | ok pair =>
    obtain ⟨s1, o1⟩ := pair
    rw [hp1] at hok
    dsimp only at hok
    cases hp2 : processFrames s1 gs2 with
    | error pair2 =>
      obtain ⟨fl2, o2⟩ := pair2
      rw [hp2] at hok
      exact absurd hok (by simp)
    | ok pair2 =>
      obtain ⟨s2, o2⟩ := pair2
      rw [hp2] at hok
      dsimp only at hok
      simp only [Except.ok.injEq, Prod.mk.injEq] at hok
      obtain ⟨hsfin, ho⟩ := hok
      rw [hp1] at hrecv
      dsimp only at hrecv
      have hs1exp : s1.expect = 5 := (processFrames_expect hp1).trans hexp
      have htjoin : t ++ rest.join = encodeFrames gs2 := by
        have h1 : encodeFrames fs1 ++ (t ++ rest.join) =
            encodeFrames fs1 ++ encodeFrames gs2 := by
          rw [← List.append_assoc, ← hu, hjoin2, hgs, encodeFrames_append]
        exact List.append_cancel_left h1
      have hdropt : (p ++ c).drop (encLen fs1) = t := by
        rw [hu, hencl, List.drop_left]
      have hlent : (p ++ c).length = encLen fs1 + t.length := by
        rw [hu, hencl]
        simp [List.length_append]
      have hrem2 : (p ++ c).length - encLen fs1 = t.length := by omega
      have hlent2 : p.length + c.length = encLen fs1 + t.length := by
        have := hlent
        rw [List.length_append] at this
        omega
      have hwf2 : ∀ f ∈ gs2, WFFrame f := fun f hf =>
        hwf f (by rw [hgs]; exact List.mem_append_right fs1 hf)
      cases tc with
      | short =>
        simp only [tailResult] at hrecv
        rw [set_expect_eq hs1exp] at hrecv
        have hod : onDataChunk cs c =
            .ok ⟨some (p ++ c), encLen fs1, t.length, s1⟩ o1 := by
          unfold onDataChunk
          rw [hmerge]
          dsimp only
          rw [hsize, hrecv]
          simp
          all_goals omega
        obtain ⟨cs3, hrest⟩ := ih gs2 s1
          ⟨some (p ++ c), encLen fs1, t.length, s1⟩ t s2 o2
          hwf2 hne htjoin rfl
          (by intro h; simp at h)
          (by
            intro b hb
            simp only [Option.some.injEq] at hb
            subst hb
            exact ⟨by dsimp only; omega, by dsimp only; exact hdropt⟩)
          (Or.inl ⟨htail, rfl⟩)
          hs1exp hp2
        refine ⟨cs3, ?_⟩
        simp only [feedChunks]
        rw [hod]
        dsimp only
        rw [hrest]
        dsimp only
        rw [ho]
      | general g =>
        obtain ⟨gs3, hgs2⟩ := hnext
        simp only [TailOk] at htail
        obtain ⟨hpre, h5t, hltt, hwg, hnrg⟩ := htail
        simp only [tailResult] at hrecv
        have hod : onDataChunk cs c =
            .ok ⟨some (p ++ c), encLen fs1, t.length,
              { s1 with expect := encSize g }⟩ o1 := by
          unfold onDataChunk
          rw [hmerge]
          dsimp only
          rw [hsize, hrecv]
          simp
          all_goals omega
        obtain ⟨cs3, hrest⟩ := ih gs2 s1
          ⟨some (p ++ c), encLen fs1, t.length,
            { s1 with expect := encSize g }⟩ t s2 o2
          hwf2 hne htjoin rfl
          (by intro h; simp at h)
          (by
            intro b hb
            simp only [Option.some.injEq] at hb
            subst hb
            exact ⟨by dsimp only; omega, by dsimp only; exact hdropt⟩)
          (Or.inr (Or.inl ⟨g, gs3, hgs2, hpre, h5t, hltt, hnrg, rfl⟩))
          hs1exp hp2
        refine ⟨cs3, ?_⟩
        simp only [feedChunks]
        rw [hod]
        dsimp only
        rw [hrest]
        dsimp only
        rw [ho]
      | rowPart g =>
        obtain ⟨gs3, hgs2⟩ := hnext
        simp only [TailOk] at htail
        obtain ⟨hpre, h5t, hltt, hwg, hrowg⟩ := htail
        simp only [tailResult] at hrecv
        have hstep_ok : ∃ s3 o3, stepFrame s1 g = .ok (s3, o3) := by
          have hp2a := hp2
          rw [hgs2] at hp2a
          simp only [processFrames] at hp2a
          cases hsg : stepFrame s1 g with
          | error pr =>
            rw [hsg] at hp2a
            simp at hp2a
          | ok pr =>
            obtain ⟨s3, o3⟩ := pr
            exact ⟨s3, o3, rfl⟩
        obtain ⟨s3, o3, hsg⟩ := hstep_ok
        obtain ⟨a2, hact2⟩ := stepFrame_rowish_ok hrowg hsg
        rw [hact2] at hrecv
        dsimp only at hrecv
        simp only [List.append_nil] at hrecv
        have hod : onDataChunk cs c =
            .ok ⟨some (p ++ c), encLen fs1, t.length,
              { a2 with expect := encSize g }⟩ o1 := by
          unfold onDataChunk
          rw [hmerge]
          dsimp only
          rw [hsize, hrecv]
          simp
          all_goals omega
        obtain ⟨cs3, hrest⟩ := ih gs2 s1
          ⟨some (p ++ c), encLen fs1, t.length,
            { a2 with expect := encSize g }⟩ t s2 o2
          hwf2 hne htjoin rfl
          (by intro h; simp at h)
          (by
            intro b hb
            simp only [Option.some.injEq] at hb
            subst hb
            exact ⟨by dsimp only; omega, by dsimp only; exact hdropt⟩)
          (Or.inr (Or.inr ⟨g, gs3, a2, hgs2, hpre, h5t, hltt, hrowg,
            hact2, rfl⟩))
          hs1exp hp2
        refine ⟨cs3, ?_⟩
        simp only [feedChunks]
        rw [hod]
        dsimp only
        rw [hrest]
        dsimp only
        rw [ho]

/-- If the merged region is still shorter than the pending head frame,
the decomposition took no complete frame and the region is a prefix of
that frame's encoding. -/
theorem prefix_small {gs fs1 gs2 : List Frame} {g0 : Frame}
    {gsB : List Frame} {u t : List Nat}
    (hgs0 : gs = g0 :: gsB) (hgs : gs = fs1 ++ gs2)
    (hu : u = encodeFrames fs1 ++ t)
    (htc : t = [] ∨ ∃ g gs3, gs2 = g :: gs3 ∧
      t = (encodeFrame g).take t.length ∧ t.length < encSize g)
    (hfit : u.length < encSize g0) (hpos : 0 < u.length) :
    u = (encodeFrame g0).take u.length := by
  cases fs1 with
  | cons f1 fs1s =>
    exfalso
    have he : gs = f1 :: (fs1s ++ gs2) := by rw [hgs]; simp
    have h2 := hgs0.symm.trans he
    obtain ⟨hf, -⟩ := List.cons.inj h2
    subst hf
    have hl := congrArg List.length hu
    simp only [encodeFrames, List.length_append] at hl
    have h3 := encodeFrame_length g0
    omega
  | nil =>
    simp only [encodeFrames, List.nil_append] at hu
    rcases htc with rfl | ⟨g, gs3, hgs2, hpre, hlt⟩
    · rw [hu] at hpos
      simp at hpos
    · simp only [List.nil_append] at hgs
      have h2 := hgs0.symm.trans (hgs.trans hgs2)
      obtain ⟨hf, -⟩ := List.cons.inj h2
      subst hf
      rw [hu]
      exact hpre

/-- If the merged region reaches the pending head frame's full size, the
decomposition starts with that frame. -/
theorem prefix_big {gs fs1 gs2 : List Frame} {g0 : Frame}
    {gsB : List Frame} {u t : List Nat}
    (hgs0 : gs = g0 :: gsB) (hgs : gs = fs1 ++ gs2)
    (hu : u = encodeFrames fs1 ++ t)
    (htc : t = [] ∨ ∃ g gs3, gs2 = g :: gs3 ∧
      t = (encodeFrame g).take t.length ∧ t.length < encSize g)
    (hfit : encSize g0 ≤ u.length) :
    ∃ fs1s, fs1 = g0 :: fs1s := by
  cases fs1 with
  | cons f1 fs1s =>
    have he : gs = f1 :: (fs1s ++ gs2) := by rw [hgs]; simp
    have h2 := hgs0.symm.trans he
    obtain ⟨hf, -⟩ := List.cons.inj h2
    exact ⟨fs1s, by rw [hf]⟩
  | nil =>
    exfalso
    simp only [encodeFrames, List.nil_append] at hu
    have h5 := encSize_ge g0
    rcases htc with rfl | ⟨g, gs3, hgs2, hpre, hlt⟩
    · rw [hu] at hfit
      simp at hfit
      omega
    · simp only [List.nil_append] at hgs
      have h2 := hgs0.symm.trans (hgs.trans hgs2)
      obtain ⟨hf, -⟩ := List.cons.inj h2
      rw [hu] at hfit
      rw [← hf] at hlt
      omega

/-- The master chunk induction: under the cross-chunk invariant, feeding
any sequence of nonempty chunks whose bytes (after the pending tail)
encode the remaining frames produces exactly the frame machine's
outputs. -/
theorem feedChunks_run :
    ∀ (chunks : List (List Nat)) (gs : List Frame) (dm : DState)
      (cs : ClientState) (p : List Nat) (sfin : DState) (o : List Out),
    (∀ f ∈ gs, WFFrame f) →
    (∀ c ∈ chunks, c ≠ []) →
    p ++ chunks.join = encodeFrames gs →
    cs.remaining = p.length →
    (cs.buffer = none → p = []) →
    (∀ b, cs.buffer = some b →
      b.length = cs.offset + cs.remaining ∧ b.drop cs.offset = p) →
    DispInv dm gs p cs.dst →
    dm.expect = 5 →
    processFrames dm gs = .ok (sfin, o) →
    ∃ cs2, feedChunks cs chunks = .ok cs2 o := by
  intro chunks
  induction chunks with
  | nil =>
    intro gs dm cs p sfin o hwf hne hjoin hrem hbn hbs hdisp hexp hok
    simp only [List.join_nil, List.append_nil] at hjoin
    rcases hdisp with ⟨hplt, hdst⟩ |
      ⟨g0, gsB, hgs0, hppre, hp5, hplt0, hnr0, hdst⟩ |
      ⟨g0, gsB, a, hgs0, hppre, hp5, hplt0, hrow0, hact0, hdst⟩
    · cases gs with
      | cons g gs2 =>
        exfalso
        have hl := congrArg List.length hjoin
        simp only [encodeFrames, List.length_append] at hl
        have h1 := encodeFrame_length g
        have h2 := encSize_ge g
        omega
      | nil =>
        simp only [processFrames, Except.ok.injEq, Prod.mk.injEq] at hok
        obtain ⟨h1, h2⟩ := hok
        exact ⟨cs, by simp [feedChunks, ← h2]⟩
    · exfalso
      rw [hgs0] at hjoin
      have hl := congrArg List.length hjoin
      simp only [encodeFrames, List.length_append] at hl
      have h1 := encodeFrame_length g0
      omega
    · exfalso
      rw [hgs0] at hjoin
      have hl := congrArg List.length hjoin
      simp only [encodeFrames, List.length_append] at hl
      have h1 := encodeFrame_length g0
      omega
  | cons c rest ih =>
    intro gs dm cs p sfin o hwf hne hjoin hrem hbn hbs hdisp hexp hok
    have hcne : c ≠ [] := hne c (by simp)
    have hne2 : ∀ x ∈ rest, x ≠ [] := fun x hx => hne x (by simp [hx])
    have hmerge := mergeChunk_run cs p c hrem hbn hbs hcne
    have hjoin2 : (p ++ c) ++ rest.join = encodeFrames gs := by
      rw [List.append_assoc]
      simpa [List.join_cons] using hjoin
    obtain ⟨fs1, gs2, t, hgs, hu, htc⟩ :=
      frames_prefix_decomp gs (p ++ c) rest.join hjoin2
    have hwf1 : ∀ f ∈ fs1, WFFrame f := fun f hf =>
      hwf f (by rw [hgs]; exact List.mem_append_left gs2 hf)
    have hulen : (p ++ c).length = encLen fs1 + t.length := by
      have h1 := congrArg List.length hu
      simpa [encLen, List.length_append] using h1
    have hsize : c.length + cs.remaining = (p ++ c).length := by
      rw [hrem, List.length_append]
      omega
    have htcp : ∃ tc, TailOk t tc ∧ TailNext gs2 tc := by
      by_cases ht5 : t.length < 5
      · exact ⟨.short, ht5, trivial⟩
      · push_neg at ht5
        rcases htc with rfl | ⟨g, gs3, hgs2, hpre, hlt⟩
        · simp at ht5
        · have hwg : WFFrame g := hwf g (by
            rw [hgs, hgs2]
            exact List.mem_append_right fs1 (by simp))
          by_cases hrg : isRowish g = true
          · have hrow := rowish_tail_is_rowdata hwg hrg ht5 hlt
            exact ⟨.rowPart g, ⟨hpre, ht5, hlt, hwg, hrow⟩, ⟨gs3, hgs2⟩⟩
          · have hnr : isRowish g = false := Bool.of_not_eq_true hrg
            exact ⟨.general g, ⟨hpre, ht5, hlt, hwg, hnr⟩, ⟨gs3, hgs2⟩⟩
    obtain ⟨tc, htail, hnext⟩ := htcp
    rcases hdisp with ⟨hplt, hdst⟩ |
      ⟨g0, gsB, hgs0, hppre, hp5, hplt0, hnr0, hdst⟩ |
      ⟨g0, gsB, a, hgs0, hppre, hp5, hplt0, hrow0, hact0, hdst⟩
    · -- the dispatcher is at a frame boundary
      have hrecv : receive cs.dst (p ++ c) 0 (p ++ c).length =
          (match processFrames dm fs1 with
          | .error (fl, oo) => ReceiveResult.fault fl oo
          | .ok (st1, oo) => tailResult st1 (encLen fs1) oo tc) := by
        rw [hdst]
        unfold receive
        exact receive_run tc hwf1 hu htail hexp
      exact feed_step_core rest c ih gs fs1 gs2 dm cs p t sfin o tc hwf hne2
        hjoin2 hgs hu htail hnext hexp hok hmerge hrem hrecv
    · -- a partial general-path frame is pending
      by_cases hfit : (p ++ c).length < encSize g0
      · -- still incomplete: the call exits immediately
        have hrecvex : receive cs.dst (p ++ c) 0 (p ++ c).length =
            .ok cs.dst 0 [] := by
          rw [hdst]
          unfold receive
          exact receiveLoop_entry_exit _ 0 [] ((p ++ c).length)
            (by dsimp only; omega)
        have hod : onDataChunk cs c =
            .ok ⟨some (p ++ c), 0, (p ++ c).length, cs.dst⟩ [] := by
          unfold onDataChunk
          rw [hmerge]
          dsimp only
          rw [hsize, hrecvex]
          simp
        have hupre : p ++ c = (encodeFrame g0).take (p ++ c).length :=
          prefix_small hgs0 hgs hu htc hfit (by
            have : 5 ≤ p.length := hp5
            simp [List.length_append]
            omega)
        obtain ⟨cs3, hrest⟩ := ih gs dm
          ⟨some (p ++ c), 0, (p ++ c).length, cs.dst⟩ (p ++ c) sfin o
          hwf hne2 hjoin2 rfl
          (by intro h; simp at h)
          (by
            intro b hb
            simp only [Option.some.injEq] at hb
            subst hb
            exact ⟨by dsimp only; omega, by dsimp only; rfl⟩)
          (Or.inr (Or.inl ⟨g0, gsB, hgs0, hupre, by
            have : 5 ≤ p.length := hp5
            simp [List.length_append]
            omega, hfit, hnr0, hdst⟩))
          hexp hok
        refine ⟨cs3, ?_⟩
        simp only [feedChunks]
        rw [hod]
        dsimp only
        rw [hrest]
        simp
      · -- the pending frame is now complete: resume at the reference state
        push_neg at hfit
        have hrecv : receive cs.dst (p ++ c) 0 (p ++ c).length =
            (match processFrames dm fs1 with
            | .error (fl, oo) => ReceiveResult.fault fl oo
            | .ok (st1, oo) => tailResult st1 (encLen fs1) oo tc) := by
          rw [hdst]
          unfold receive
          have h5g := encSize_ge g0
          rw [receiveLoop_set_expect ((p ++ c).length) dm 0 [] (encSize g0)
            (by omega) (by rw [hexp]; omega)]
          exact receive_run tc hwf1 hu htail hexp
        exact feed_step_core rest c ih gs fs1 gs2 dm cs p t sfin o tc hwf hne2
          hjoin2 hgs hu htail hnext hexp hok hmerge hrem hrecv
    · -- a partial row-data frame is pending, its consumer already active
      by_cases hfit : (p ++ c).length < encSize g0
      · have hrecvex : receive cs.dst (p ++ c) 0 (p ++ c).length =
            .ok cs.dst 0 [] := by
          rw [hdst]
          unfold receive
          exact receiveLoop_entry_exit _ 0 [] ((p ++ c).length)
            (by dsimp only; omega)
        have hod : onDataChunk cs c =
            .ok ⟨some (p ++ c), 0, (p ++ c).length, cs.dst⟩ [] := by
          unfold onDataChunk
          rw [hmerge]
          dsimp only
          rw [hsize, hrecvex]
          simp
        have hupre : p ++ c = (encodeFrame g0).take (p ++ c).length :=
          prefix_small hgs0 hgs hu htc hfit (by
            have : 5 ≤ p.length := hp5
            simp [List.length_append]
            omega)
        obtain ⟨cs3, hrest⟩ := ih gs dm
          ⟨some (p ++ c), 0, (p ++ c).length, cs.dst⟩ (p ++ c) sfin o
          hwf hne2 hjoin2 rfl
          (by intro h; simp at h)
          (by
            intro b hb
            simp only [Option.some.injEq] at hb
            subst hb
            exact ⟨by dsimp only; omega, by dsimp only; rfl⟩)
          (Or.inr (Or.inr ⟨g0, gsB, a, hgs0, hupre, by
            have : 5 ≤ p.length := hp5
            simp [List.length_append]
            omega, hfit, hrow0, hact0, hdst⟩))
          hexp hok
        refine ⟨cs3, ?_⟩
        simp only [feedChunks]
        rw [hod]
        dsimp only
        rw [hrest]
        simp
      · push_neg at hfit
        have haexp : a.expect = 5 := by
          rw [fastActivate_expect hact0, hexp]
        obtain ⟨fs1s, rfl⟩ := prefix_big hgs0 hgs hu htc hfit
        have hpeq : processFrames a (g0 :: fs1s) =
            processFrames dm (g0 :: fs1s) := by
          have hse := stepFrame_after_activate hact0 hrow0
          simp only [processFrames, hse]
        have hrecv : receive cs.dst (p ++ c) 0 (p ++ c).length =
            (match processFrames dm (g0 :: fs1s) with
            | .error (fl, oo) => ReceiveResult.fault fl oo
            | .ok (st1, oo) => tailResult st1 (encLen (g0 :: fs1s)) oo tc) := by
          rw [hdst]
          unfold receive
          have h5g := encSize_ge g0
          rw [receiveLoop_set_expect ((p ++ c).length) a 0 [] (encSize g0)
            (by omega) (by rw [haexp]; omega)]
          rw [receive_run tc hwf1 hu htail haexp, hpeq]
        exact feed_step_core rest c ih gs (g0 :: fs1s) gs2 dm cs p t sfin o tc
          hwf hne2 hjoin2 hgs hu htail hnext hexp hok hmerge hrem hrecv

/-- C1: chunk invariance of the reassembler plus dispatcher.  For a
well-formed stream of complete frames whose processing succeeds, feeding
the stream split at any set of byte boundaries (as nonempty chunks)
through the data handler produces exactly the same outputs — the same
rows to the same consumers in the same order and the same events — as
feeding it split at any other boundaries, in particular as one whole
chunk; both equal the reference frame machine's outputs. -/
theorem chunk_invariance (dst : DState) (fs : List Frame)
    (chunks1 chunks2 : List (List Nat)) (sfin : DState) (o : List Out)
    (hwf : ∀ f ∈ fs, WFFrame f)
    (hne1 : ∀ c ∈ chunks1, c ≠ []) (hne2 : ∀ c ∈ chunks2, c ≠ [])
    (hjoin1 : chunks1.join = encodeFrames fs)
    (hjoin2 : chunks2.join = encodeFrames fs)
    (hexp : dst.expect = 5)
    (hok : processFrames dst fs = .ok (sfin, o)) :
    feedOuts (feedChunks (initialClient dst) chunks1) =
      feedOuts (feedChunks (initialClient dst) chunks2) ∧
    feedOuts (feedChunks (initialClient dst) chunks1) = o := by
  obtain ⟨cs1, h1⟩ := feedChunks_run chunks1 fs dst (initialClient dst) []
    sfin o hwf hne1 (by simpa using hjoin1) rfl (fun _ => rfl)
    (by intro b hb; simp [initialClient] at hb)
    (Or.inl ⟨by simp, rfl⟩) hexp hok
  obtain ⟨cs2, h2⟩ := feedChunks_run chunks2 fs dst (initialClient dst) []
    sfin o hwf hne2 (by simpa using hjoin2) rfl (fun _ => rfl)
    (by intro b hb; simp [initialClient] at hb)
    (Or.inl ⟨by simp, rfl⟩) hexp hok
  rw [h1, h2]
  exact ⟨rfl, rfl⟩

/-- Witness for C1: a five-byte "no data" frame stream split as
`[110,0] / [0,0,4]` versus fed whole, against a client with one pending
row consumer; both feeds deliver exactly the end-of-stream sentinel to
that consumer. -/
theorem chunk_invariance_witness :
    feedOuts (feedChunks (initialClient exampleD1) [[110, 0], [0, 0, 4]]) =
      feedOuts (feedChunks (initialClient exampleD1) [[110, 0, 0, 0, 4]]) ∧
    feedOuts (feedChunks (initialClient exampleD1) [[110, 0], [0, 0, 4]]) =
      [Out.endOfRows 7] :=
  chunk_invariance exampleD1 [⟨110, []⟩] [[110, 0], [0, 0, 4]]
    [[110, 0, 0, 0, 4]] exampleD [Out.endOfRows 7]
    (by
      intro f hf
      simp only [List.mem_singleton] at hf
      subst hf
      exact ⟨by decide, by simp, by decide, fun _ => rfl,
        fun h => absurd h (by decide), fun h => absurd h (by decide),
        fun h => absurd h (by decide), fun h => absurd h (by decide),
        fun h => absurd h (by decide)⟩)
    (by decide) (by decide) (by decide) (by decide) rfl (by rfl)

/-! ## C2: the fast path's header-boundary check -/

/-- The fast path only appends to its output accumulator. -/
theorem fastLoop_outs_len {u : List Nat} {size : Nat} :
    ∀ (fuel : Nat) (st : DState) (read : Nat) (acc : List Out)
      {st' : DState} {r : Nat} {o' : List Out},
    fastLoop u 0 size fuel st read acc = FastResult.ret st' r o' →
    acc.length ≤ o'.length := by
  intro fuel
  induction fuel with
  | zero =>
    intro st read acc st' r o' h
    exact absurd h (by simp [fastLoop])
  | succ fuel ih =>
    intro st read acc st' r o' h
    simp only [fastLoop] at h
    by_cases hrow : readInt8 u (0 + read) = msgRowData ∨
        readInt8 u (0 + read) = msgNoData
    · rw [if_pos hrow] at h
      cases hact : fastActivate st
          (decide (readInt8 u (0 + read) = msgNoData)) with
      | error ff =>
        rw [hact] at h
        exact absurd h (by simp)
      | ok pair =>
        obtain ⟨s1, o1⟩ := pair
        rw [hact] at h
        dsimp only at h
        cases hai : s1.activeInfo with
        | some hd =>
          obtain ⟨hh, dd⟩ := hd
          rw [hai] at h
          dsimp only at h
          split at h
          · simp only [FastResult.ret.injEq] at h
            rw [← h.2.2]
            simp
          · split at h
            · simp only [FastResult.ret.injEq] at h
              rw [← h.2.2]
              simp
            · have := ih _ _ _ h
              simp at this
              omega
        | none =>
          rw [hai] at h
          dsimp only at h
          split at h
          · simp only [FastResult.ret.injEq] at h
            rw [← h.2.2]
            simp
          · have := ih _ _ _ h
            simp at this
            omega
    · rw [if_neg hrow] at h
      exact absurd h (by simp)

/-- A successful activation that leaves no active context (a "no data"
pop) emits the end-of-stream sentinel: its output list is nonempty. -/
theorem fastActivate_none_nonempty {st s1 : DState} {b : Bool}
    {o1 : List Out} (h : fastActivate st b = .ok (s1, o1))
    (hai : s1.activeInfo = none) : o1 ≠ [] := by
  unfold fastActivate at h
  cases hst : st.activeInfo with
  | some hd =>
    rw [hst] at h
    simp only [Except.ok.injEq, Prod.mk.injEq] at h
    obtain ⟨h1, -⟩ := h
    rw [← h1] at hai
    rw [hst] at hai
    exact Option.noConfusion hai
  | none =>
    rw [hst] at h
    cases hdh : st.dataHandlers with
    | nil =>
      rw [hdh] at h
      exact absurd h (by simp)
    | cons hh hs =>
      rw [hdh] at h
      cases b with
      | true =>
        simp only [Except.ok.injEq, Prod.mk.injEq] at h
        obtain ⟨rfl, rfl⟩ := h
        simp
      | false =>
        cases hrd : st.rowDescriptions with
        | nil =>
          rw [hrd] at h
          exact absurd h (by simp)
        | cons dsc ds =>
          rw [hrd] at h
          simp only [Except.ok.injEq, Prod.mk.injEq] at h
          obtain ⟨rfl, rfl⟩ := h
          simp at hai

/-- When at least a header's worth of bytes is unread at entry, any early
`return` of the fast path that adds no output leaves `expect` different
from 5: the only such return is the incomplete-frame return, whose
`expect` is the (strictly larger) full frame size. -/
theorem fastLoop_ret_no5 {u : List Nat} {size : Nat} (fuel : Nat)
    (st : DState) (read : Nat) (acc : List Out) {st' : DState} {r : Nat}
    {o' : List Out} (hsz : ¬size < read + 5)
    (h : fastLoop u 0 size (fuel + 1) st read acc = FastResult.ret st' r o')
    (ho : o' = acc) : st'.expect ≠ 5 := by
  simp only [fastLoop] at h
  by_cases hrow : readInt8 u (0 + read) = msgRowData ∨
      readInt8 u (0 + read) = msgNoData
  · rw [if_pos hrow] at h
    cases hact : fastActivate st
        (decide (readInt8 u (0 + read) = msgNoData)) with
    | error ff =>
      rw [hact] at h
      exact absurd h (by simp)
    | ok pair =>
      obtain ⟨s1, o1⟩ := pair
      rw [hact] at h
      dsimp only at h
      cases hai : s1.activeInfo with
      | some hd =>
        obtain ⟨hh, dd⟩ := hd
        rw [hai] at h
        dsimp only at h
        split at h
        · rename_i hcond
          simp only [FastResult.ret.injEq] at h
          obtain ⟨h1, -, -⟩ := h
          rw [← h1]
          simp only
          omega
        · split at h
          · simp only [FastResult.ret.injEq] at h
            obtain ⟨-, -, h3⟩ := h
            exfalso
            rw [ho] at h3
            have := congrArg List.length h3
            simp at this
          · exfalso
            have hlen := fastLoop_outs_len fuel _ _ _ h
            rw [ho] at hlen
            simp at hlen
      | none =>
        rw [hai] at h
        dsimp only at h
        have hne : o1 ≠ [] := fastActivate_none_nonempty hact hai
        split at h
        · simp only [FastResult.ret.injEq] at h
          obtain ⟨-, -, h3⟩ := h
          exfalso
          rw [ho] at h3
          have := congrArg List.length h3
          simp at this
          exact hne (by
            cases o1 with
            | nil => rfl
            | cons x xs => simp at this)
        · exfalso
          have hlen := fastLoop_outs_len fuel _ _ _ h
          rw [ho] at hlen
          simp at hlen
          exact hne (by
            cases o1 with
            | nil => rfl
            | cons x xs => simp at hlen)
  · rw [if_neg hrow] at h
    exact absurd h (by simp)

/-- C2: the fast path's header-boundary check.  After consuming a
complete row-data frame located at the cursor, the loop returns early
with `expect` reset to 5 (and exactly the outputs of that frame's step)
if and only if fewer than five unread bytes remain after the frame; and
whenever at least five bytes remain, it continues with the next frame. -/
theorem fastPath_header_boundary (st : DState) {u rest : List Nat}
    {read : Nat} {f : Frame} (acc : List Out) (fuel : Nat)
    (hu : u.drop read = encodeFrame f ++ rest)
    (hrow : tagInt f.tag = msgRowData) (hwf : WFFrame f)
    {st1 : DState} {o : List Out}
    (hstep : stepFrame st f = .ok (st1, o)) :
    (fastLoop u 0 u.length (fuel + 1) st read acc =
        FastResult.ret { st1 with expect := 5 } (read + encSize f) (acc ++ o)
      ↔ rest.length < 5) ∧
    (5 ≤ rest.length →
      fastLoop u 0 u.length (fuel + 1) st read acc =
        fastLoop u 0 u.length fuel st1 (read + encSize f) (acc ++ o)) := by
  have hrowish : isRowish f = true := (isRowish_iff f).mpr (Or.inl hrow)
  have hdecomp : u.length = read + encSize f + rest.length :=
    frame_length_decomp hu
  have h5f := encSize_ge f
  constructor
  · constructor
    · intro hret
      by_contra hge
      push_neg at hge
      have hstep2 := fastLoop_row_step st acc fuel hu hrowish hwf
      rw [hstep] at hstep2
      dsimp only at hstep2
      rw [if_neg (by omega)] at hstep2
      rw [hstep2] at hret
      cases fuel with
      | zero => exact absurd hret (by simp [fastLoop])
      | succ k =>
        exact @fastLoop_ret_no5 u u.length k st1 (read + encSize f)
          (acc ++ o) _ _ _ (by omega) hret rfl rfl
    · intro hlt
      have hstep2 := fastLoop_row_step st acc fuel hu hrowish hwf
      rw [hstep] at hstep2
      dsimp only at hstep2
      rw [if_pos (by omega)] at hstep2
      exact hstep2
  · intro hge
    have hstep2 := fastLoop_row_step st acc fuel hu hrowish hwf
    rw [hstep] at hstep2
    dsimp only at hstep2
    rw [if_neg (by omega)] at hstep2
    exact hstep2

/-- Witness for C2: a complete empty row-data frame filling the whole
region (zero bytes remain, which is fewer than five), against a state
with an active delivery context; the loop returns early with
`expect = 5` and the delivered row. -/
theorem fastPath_header_boundary_witness :
    (fastLoop [68, 0, 0, 0, 4] 0 ([68, 0, 0, 0, 4] : List Nat).length
        (0 + 1) exampleDA 0 [] =
      FastResult.ret { exampleDA with expect := 5 } (0 + encSize ⟨68, []⟩)
        ([] ++ [Out.row 7 [] []])
      ↔ ([] : List Nat).length < 5) ∧
    ([] : List Nat).length < 5 :=
  ⟨(fastPath_header_boundary exampleDA [] 0
      (by decide)
      (by decide)
      ⟨by decide, by simp, by decide, fun h => absurd h (by decide),
        fun h => absurd h (by decide), fun h => absurd h (by decide),
        fun h => absurd h (by decide), fun h => absurd h (by decide),
        fun h => absurd h (by decide)⟩
      (by rfl)).1,
    by decide⟩

/-! ## C4: single active context and FIFO row delivery -/

/-- The dispatch switch never delivers a row, and it either leaves the
consumer queue untouched or (on `Close` with an active context) retires
the queue's head. -/
theorem stepSwitch_queue {st s1 : DState} {buf : List Nat}
    {start len : Nat} {m : Int} {o1 : List Out}
    (h : stepSwitch st buf start len m = .ok (s1, o1)) :
    (queueOf s1 = queueOf st ∧ o1.filterMap rowHandler = []) ∨
    (∃ h0 q2, queueOf st = h0 :: q2 ∧ queueOf s1 = q2 ∧
      o1.filterMap rowHandler = []) := by
  unfold stepSwitch at h
  by_cases hc0 : m = msgAuthenticate
  · rw [if_pos hc0] at h
    try dsimp only at h
    repeat' split at h
    all_goals first
      | exact Except.noConfusion h
      | (injection h with h12
         injection h12 with ha hb
         subst ha
         subst hb
         exact Or.inl ⟨rfl, rfl⟩)
  rw [if_neg hc0] at h
  by_cases hc1 : m = msgBackendKeyData
  · rw [if_pos hc1] at h
    try dsimp only at h
    repeat' split at h
    all_goals first
      | exact Except.noConfusion h
      | (injection h with h12
         injection h12 with ha hb
         subst ha
         subst hb
         exact Or.inl ⟨rfl, rfl⟩)
  rw [if_neg hc1] at h
  by_cases hc2 : m = msgBindComplete
  · rw [if_pos hc2] at h
    try dsimp only at h
    repeat' split at h
    all_goals first
      | exact Except.noConfusion h
      | (injection h with h12
         injection h12 with ha hb
         subst ha
         subst hb
         exact Or.inl ⟨rfl, rfl⟩)
  rw [if_neg hc2] at h
  by_cases hc3 : m = msgClose
  · rw [if_pos hc3] at h
    cases hai : st.activeInfo with
    | some hd =>
      obtain ⟨hh, hsnd⟩ := hd
      rw [hai] at h
      injection h with h12
      injection h12 with ha hb
      subst ha
      subst hb
      right
      exact ⟨hh, st.dataHandlers, by simp [queueOf, hai],
        by simp [queueOf], rfl⟩
    | none =>
      rw [hai] at h
      injection h with h12
      injection h12 with ha hb
      subst ha
      subst hb
      exact Or.inl ⟨rfl, rfl⟩
  rw [if_neg hc3] at h
  by_cases hc4 : m = msgCloseComplete
  · rw [if_pos hc4] at h
    try dsimp only at h
    repeat' split at h
    all_goals first
      | exact Except.noConfusion h
      | (injection h with h12
         injection h12 with ha hb
         subst ha
         subst hb
         exact Or.inl ⟨rfl, rfl⟩)
  rw [if_neg hc4] at h
  by_cases hc5 : m = msgError
  · rw [if_pos hc5] at h
    try dsimp only at h
    repeat' split at h
    all_goals first
      | exact Except.noConfusion h
      | (injection h with h12
         injection h12 with ha hb
         subst ha
         subst hb
         exact Or.inl ⟨rfl, rfl⟩)
  rw [if_neg hc5] at h
  by_cases hc6 : m = msgNotice
  · rw [if_pos hc6] at h
    try dsimp only at h
    repeat' split at h
    all_goals first
      | exact Except.noConfusion h
      | (injection h with h12
         injection h12 with ha hb
         subst ha
         subst hb
         exact Or.inl ⟨rfl, rfl⟩)
  rw [if_neg hc6] at h
  by_cases hc7 : m = msgParseComplete
  · rw [if_pos hc7] at h
    try dsimp only at h
    repeat' split at h
    all_goals first
      | exact Except.noConfusion h
      | (injection h with h12
         injection h12 with ha hb
         subst ha
         subst hb
         exact Or.inl ⟨rfl, rfl⟩)
  rw [if_neg hc7] at h
  by_cases hc8 : m = msgParameterDescription
  · rw [if_pos hc8] at h
    try dsimp only at h
    cases hps : st.preparedStatements with
    | nil =>
      rw [hps] at h
      injection h with h12
      injection h12 with ha hb
      subst ha
      subst hb
      exact Or.inl ⟨rfl, rfl⟩
    | cons ps rest2 =>
      rw [hps] at h
      try dsimp only at h
      injection h with h12
      injection h12 with ha hb
      subst ha
      subst hb
      left
      refine ⟨rfl, ?_⟩
      by_cases hpp : ps.portal ≠ ""
      · rw [if_pos hpp]
        rfl
      · rw [if_neg hpp]
        rfl
  rw [if_neg hc8] at h
  by_cases hc9 : m = msgParameterStatus
  · rw [if_pos hc9] at h
    try dsimp only at h
    repeat' split at h
    all_goals first
      | exact Except.noConfusion h
      | (injection h with h12
         injection h12 with ha hb
         subst ha
         subst hb
         exact Or.inl ⟨rfl, rfl⟩)
  rw [if_neg hc9] at h
  by_cases hc10 : m = msgReadyForQuery
  · rw [if_pos hc10] at h
    try dsimp only at h
    repeat' split at h
    all_goals first
      | exact Except.noConfusion h
      | (injection h with h12
         injection h12 with ha hb
         subst ha
         subst hb
         exact Or.inl ⟨rfl, rfl⟩)
  rw [if_neg hc10] at h
  by_cases hc11 : m = msgRowDescription
  · rw [if_pos hc11] at h
    try dsimp only at h
    repeat' split at h
    all_goals first
      | exact Except.noConfusion h
      | (injection h with h12
         injection h12 with ha hb
         subst ha
         subst hb
         exact Or.inl ⟨rfl, rfl⟩)
  rw [if_neg hc11] at h
  try dsimp only at h
  repeat' split at h
  all_goals first
    | exact Except.noConfusion h
    | (injection h with h12
       injection h12 with ha hb
       subst ha
       subst hb
       exact Or.inl ⟨rfl, rfl⟩)

/-- One frame step either leaves the consumer queue untouched with no row
delivered, delivers exactly one row to the queue's head (keeping it
active), or retires the queue's head delivering no row. -/
theorem stepFrame_queue {st s1 : DState} {f : Frame} {o1 : List Out}
    (h : stepFrame st f = .ok (s1, o1)) :
    (queueOf s1 = queueOf st ∧ o1.filterMap rowHandler = []) ∨
    (∃ h0 q2, queueOf st = h0 :: q2 ∧ queueOf s1 = h0 :: q2 ∧
      o1.filterMap rowHandler = [h0]) ∨
    (∃ h0 q2, queueOf st = h0 :: q2 ∧ queueOf s1 = q2 ∧
      o1.filterMap rowHandler = []) := by
  unfold stepFrame at h
  dsimp only at h
  split at h
  · cases hai : st.activeInfo with
    | some hd =>
      obtain ⟨hh, hdd⟩ := hd
      have hact : fastActivate st
          (decide (tagInt f.tag = msgNoData)) = .ok (st, []) := by
        unfold fastActivate
        rw [hai]
      rw [hact] at h
      dsimp only at h
      rw [hai] at h
      dsimp only at h
      injection h with h12
      injection h12 with ha hb
      subst ha
      subst hb
      right
      left
      exact ⟨hh, st.dataHandlers, by simp [queueOf, hai],
        by simp [queueOf, hai], rfl⟩
    | none =>
      unfold fastActivate at h
      rw [hai] at h
      cases hdh : st.dataHandlers with
      | nil =>
        rw [hdh] at h
        exact Except.noConfusion h
      | cons h0 hs =>
        rw [hdh] at h
        cases hb2 : decide (tagInt f.tag = msgNoData) with
        | true =>
          rw [hb2] at h
          dsimp only at h
          injection h with h12
          injection h12 with ha hb
          subst ha
          subst hb
          right
          right
          exact ⟨h0, hs, by simp [queueOf, hai, hdh],
            by simp [queueOf, hai], rfl⟩
        | false =>
          rw [hb2] at h
          dsimp only at h
          cases hrd : st.rowDescriptions with
          | nil =>
            rw [hrd] at h
            exact Except.noConfusion h
          | cons d0 ds =>
            rw [hrd] at h
            dsimp only at h
            injection h with h12
            injection h12 with ha hb
            subst ha
            subst hb
            right
            left
            exact ⟨h0, hs, by simp [queueOf, hai, hdh],
              by simp [queueOf], rfl⟩
  · rcases stepSwitch_queue h with h1 | ⟨h0, q2, hq1, hq2, ho⟩
    · exact Or.inl h1
    · exact Or.inr (Or.inr ⟨h0, q2, hq1, hq2, ho⟩)

/-- The frame machine delivers rows as contiguous blocks per consumer, in
the queue's FIFO order: the handler sequence of the delivered rows is a
concatenation of repetitions of the queue's entries in order. -/
theorem processFrames_row_fifo :
    ∀ (fs : List Frame) (st : DState) {s : DState} {o : List Out},
    processFrames st fs = .ok (s, o) →
    ∃ ks, o.filterMap rowHandler =
      (List.zipWith List.replicate ks (queueOf st)).join := by
  intro fs
  induction fs with
  | nil =>
    intro st s o h
    simp only [processFrames, Except.ok.injEq, Prod.mk.injEq] at h
    obtain ⟨-, h2⟩ := h
    exact ⟨[], by simp [← h2]⟩
  | cons f fs2 ih =>
    intro st s o h
    simp only [processFrames] at h
    cases hsf : stepFrame st f with
    | error pr =>
      rw [hsf] at h
      exact absurd h (by simp)
    | ok pr =>
      obtain ⟨s1, o1⟩ := pr
      rw [hsf] at h
      dsimp only at h
      cases hpf : processFrames s1 fs2 with
      | error pr2 =>
        rw [hpf] at h
        obtain ⟨fl2, o2⟩ := pr2
        exact absurd h (by simp)
      | ok pr2 =>
        obtain ⟨s2, o2⟩ := pr2
        rw [hpf] at h
        dsimp only at h
        simp only [Except.ok.injEq, Prod.mk.injEq] at h
        obtain ⟨-, ho⟩ := h
        obtain ⟨ks, hks⟩ := ih s1 hpf
        rw [← ho, List.filterMap_append, hks]
        rcases stepFrame_queue hsf with ⟨hq, hro⟩ |
          ⟨h0, q2, hq1, hq2, hro⟩ | ⟨h0, q2, hq1, hq2, hro⟩
        · rw [hro, hq]
          exact ⟨ks, by simp⟩
        · rw [hro, hq1, hq2]
          cases ks with
          | nil => exact ⟨[1], by simp⟩
          | cons k0 ks2 =>
            refine ⟨(k0 + 1) :: ks2, ?_⟩
            simp [List.replicate_succ]
        · rw [hro, hq1, hq2]
          exact ⟨0 :: ks, by simp⟩

/-- C4: at every point during dispatch at most one consumer/description
pair is active (the active context is a single optional pair, so any two
simultaneously active pairs are equal), and row deliveries never
interleave across result sets: the consumers of the delivered rows form
contiguous blocks following the strict FIFO order of the consumer queue,
so all rows of an earlier query are delivered before any row of a later
one. -/
theorem single_active_fifo_rows (st : DState) (fs : List Frame)
    (s : DState) (o : List Out)
    (h : processFrames st fs = .ok (s, o)) :
    (∀ k sk ok2, processFrames st (fs.take k) = .ok (sk, ok2) →
      ∀ hd1 hd2, sk.activeInfo = some hd1 → sk.activeInfo = some hd2 →
        hd1 = hd2) ∧
    (∃ ks, o.filterMap rowHandler =
      (List.zipWith List.replicate ks (queueOf st)).join) := by
  constructor
  · intro k sk ok2 hk hd1 hd2 h1 h2
    rw [h1] at h2
    exact (Option.some.inj h2)
  · exact processFrames_row_fifo fs st h

/-- Witness for C4: two pipelined queries (consumers 7 then 8); a row for
7, a `Close` retiring 7, then a row for 8.  The delivered row handlers
`[7, 8]` are the block concatenation `[7] ++ [8]` over the queue. -/
theorem single_active_fifo_rows_witness :
    ∃ ks, ([Out.row 7 [1] [], Out.endOfRows 7,
        Out.row 8 [2] []].filterMap rowHandler) =
      (List.zipWith List.replicate ks (queueOf exampleD2)).join :=
  (single_active_fifo_rows exampleD2 [⟨68, []⟩, ⟨67, []⟩, ⟨68, []⟩]
    ⟨5, [], [], [], [], some (8, [2]), false, none, none, none, false⟩
    [Out.row 7 [1] [], Out.endOfRows 7, Out.row 8 [2] []] (by rfl)).2

/-! ## C3 (amended): behaviour of the four registries when popped empty -/

/-- C3 (amended): the four FIFO registries do not behave uniformly when
popped empty.  Popping an empty row-consumer registry on row data throws
the "unexpected data" fault, and popping an empty row-description
registry (with a consumer pending) throws the "row description expected"
fault; but a parameter-description frame arriving with no pending
prepared-statement context is silently skipped (the pop is guarded), and
a row-description frame with no pending name consumer is accepted
without fault, the description being queued for later.  The claim's
uniform "popping an empty registry raises the fatal unexpected-data
condition" — "in particular" for parameter descriptions — is therefore
false for the latter two registries (see
`paramDescription_empty_registry_no_fault` for the self-contained
counterexample). -/
theorem registry_pop_empty_behavior (st : DState) (hexp : st.expect = 5) :
    (st.activeInfo = none → st.dataHandlers = [] →
      receive st (encodeFrame ⟨68, []⟩) 0 (encodeFrame ⟨68, []⟩).length =
        .fault .unexpectedData []) ∧
    (∀ h0 hs, st.activeInfo = none → st.dataHandlers = h0 :: hs →
      st.rowDescriptions = [] →
      receive st (encodeFrame ⟨68, []⟩) 0 (encodeFrame ⟨68, []⟩).length =
        .fault .rowDescriptionExpected []) ∧
    (st.preparedStatements = [] →
      receive st (encodeFrame ⟨116, [0, 0]⟩) 0
          (encodeFrame ⟨116, [0, 0]⟩).length =
        .ok { st with expect := 5 } 7 []) ∧
    (st.nameHandlers = [] →
      receive st (encodeFrame ⟨84, []⟩) 0 (encodeFrame ⟨84, []⟩).length =
        .ok ({ st with expect := 5, rowDescriptions := st.rowDescriptions ++ [readRowDescription (encodeFrame ⟨84, []⟩) 5 0] }) 5 []) := by
  have hwf68 : WFFrame ⟨68, []⟩ :=
    ⟨by decide, by simp, by decide, fun h => absurd h (by decide),
      fun h => absurd h (by decide), fun h => absurd h (by decide),
      fun h => absurd h (by decide), fun h => absurd h (by decide),
      fun h => absurd h (by decide)⟩
  have hwf116 : WFFrame ⟨116, [0, 0]⟩ :=
    ⟨by decide, by decide, by decide, fun h => absurd h (by decide),
      fun h => absurd h (by decide), fun h => absurd h (by decide),
      fun _ => ⟨by decide, by decide, by decide⟩,
      fun h => absurd h (by decide), fun h => absurd h (by decide)⟩
  have hwf84 : WFFrame ⟨84, []⟩ :=
    ⟨by decide, by simp, by decide, fun h => absurd h (by decide),
      fun h => absurd h (by decide), fun h => absurd h (by decide),
      fun h => absurd h (by decide), fun h => absurd h (by decide),
      fun h => absurd h (by decide)⟩
  refine ⟨?_, ?_, ?_, ?_⟩
  · intro hai hdh
    have hact : fastActivate st false = .error .unexpectedData := by
      unfold fastActivate
      rw [hai, hdh]
    have hsf : stepFrame st ⟨68, []⟩ = .error (.unexpectedData, []) := by
      unfold stepFrame
      dsimp only
      rw [if_pos (by decide)]
      have hd : (decide (tagInt (⟨68, []⟩ : Frame).tag = msgNoData)) =
          false := by decide
      rw [hd, hact]
    have hpf : processFrames st [⟨68, []⟩] =
        .error (.unexpectedData, []) := by
      simp [processFrames, hsf]
    unfold receive
    rw [@receive_run (encodeFrame ⟨68, []⟩) [] [⟨68, []⟩] st .short
      (fun f hf => by
        cases hf with
        | head => exact hwf68
        | tail _ h2 => cases h2)
      (by simp [encodeFrames])
      (by
        show ([] : List Nat).length < 5
        decide) hexp]
    rw [hpf]
  · intro h0 hs hai hdh hrd
    have hact : fastActivate st false = .error .rowDescriptionExpected := by
      unfold fastActivate
      rw [hai, hdh, hrd]
      simp
    have hsf : stepFrame st ⟨68, []⟩ =
        .error (.rowDescriptionExpected, []) := by
      unfold stepFrame
      dsimp only
      rw [if_pos (by decide)]
      have hd : (decide (tagInt (⟨68, []⟩ : Frame).tag = msgNoData)) =
          false := by decide
      rw [hd, hact]
    have hpf : processFrames st [⟨68, []⟩] =
        .error (.rowDescriptionExpected, []) := by
      simp [processFrames, hsf]
    unfold receive
    rw [@receive_run (encodeFrame ⟨68, []⟩) [] [⟨68, []⟩] st .short
      (fun f hf => by
        cases hf with
        | head => exact hwf68
        | tail _ h2 => cases h2)
      (by simp [encodeFrames])
      (by
        show ([] : List Nat).length < 5
        decide) hexp]
    rw [hpf]
  · intro hps
    have hsf : stepFrame st ⟨116, [0, 0]⟩ = .ok (st, []) := by
      unfold stepFrame
      dsimp only
      rw [if_neg (by decide)]
      unfold stepSwitch
      rw [if_neg (by decide), if_neg (by decide), if_neg (by decide), if_neg (by decide), if_neg (by decide), if_neg (by decide), if_neg (by decide), if_neg (by decide), if_pos (by decide)]
      dsimp only
      rw [hps]
    have hpf : processFrames st [⟨116, [0, 0]⟩] = .ok (st, []) := by
      simp [processFrames, hsf]
    unfold receive
    rw [@receive_run (encodeFrame ⟨116, [0, 0]⟩) [] [⟨116, [0, 0]⟩] st .short
      (fun f hf => by
        cases hf with
        | head => exact hwf116
        | tail _ h2 => cases h2)
      (by simp [encodeFrames])
      (by
        show ([] : List Nat).length < 5
        decide) hexp]
    rw [hpf]
    rfl
  · intro hnh
    have hsf : stepFrame st ⟨84, []⟩ =
        .ok ({ st with rowDescriptions := st.rowDescriptions ++
          [readRowDescription (encodeFrame ⟨84, []⟩) 5 0] }, []) := by
      unfold stepFrame
      dsimp only
      rw [if_neg (by decide)]
      unfold stepSwitch
      rw [if_neg (by decide), if_neg (by decide), if_neg (by decide), if_neg (by decide), if_neg (by decide), if_neg (by decide), if_neg (by decide), if_neg (by decide), if_neg (by decide), if_neg (by decide), if_neg (by decide), if_pos (by decide)]
      dsimp only
      cases hnhc : st.nameHandlers with
      | nil => rfl
      | cons a b =>
        rw [hnh] at hnhc
        exact absurd hnhc (by simp)
    have hpf : processFrames st [⟨84, []⟩] =
        .ok ({ st with rowDescriptions := st.rowDescriptions ++
          [readRowDescription (encodeFrame ⟨84, []⟩) 5 0] }, []) := by
      simp [processFrames, hsf]
    unfold receive
    rw [@receive_run (encodeFrame ⟨84, []⟩) [] [⟨84, []⟩] st .short
      (fun f hf => by
        cases hf with
        | head => exact hwf84
        | tail _ h2 => cases h2)
      (by simp [encodeFrames])
      (by
        show ([] : List Nat).length < 5
        decide) hexp]
    rw [hpf]
    rfl

/-- Witness for C3 (amended), at the quiescent empty-registry state: the
empty row-consumer pop faults, while the empty prepared-statement pop is
silently accepted. -/
theorem registry_pop_empty_behavior_witness :
    receive exampleD (encodeFrame ⟨68, []⟩) 0
        (encodeFrame ⟨68, []⟩).length = .fault .unexpectedData [] ∧
    receive exampleD (encodeFrame ⟨116, [0, 0]⟩) 0
        (encodeFrame ⟨116, [0, 0]⟩).length =
      .ok { exampleD with expect := 5 } 7 [] :=
  ⟨(registry_pop_empty_behavior exampleD rfl).1 rfl rfl,
   (registry_pop_empty_behavior exampleD rfl).2.2.1 rfl⟩

end TsPostgres
